import Mathlib

/-!
# Verification of the Y-game core (gamey)

Shallow embedding of the `gamey` crate's core: the triangular coordinate
system, the `TriangularTopology`, the generic union-find `GameEngine`,
the `GameY` state machine and the YEN exchange format, together with
proofs of the specification's claims about them.

Machine integers (`u32`, `usize`) never approach overflow here (cell
counts are tiny), so they are modelled as `Nat`.
-/

namespace YGame

/-! ## Coordinate system

The `Coordinates` type lives outside the analysed sources (only its
callers are available), so it is modelled from the spec. -/

/-- Modelled from the spec: a 3-axis cell address `(x, y, z)` of
non-negative integers with intended invariant `x + y + z = size - 1`.
The concrete `Coordinates` struct is not among the provided sources. -/
structure Coordinates where
  x : Nat
  y : Nat
  z : Nat
deriving DecidableEq

/-- `tri n` is the `n`-th triangular number, the number of cells in the
first `n` rows of the board. -/
def tri : Nat → Nat
  | 0 => 0
  | n + 1 => tri n + (n + 1)

theorem tri_zero : tri 0 = 0 := rfl

theorem tri_succ (n : Nat) : tri (n + 1) = tri n + (n + 1) := rfl

theorem two_mul_tri (n : Nat) : 2 * tri n = n * (n + 1) := by
  induction n with
  | zero => rfl
  | succ n ih => rw [tri_succ]; ring_nf; ring_nf at ih; omega

/-- `tri` agrees with the closed formula `n * (n + 1) / 2` used
throughout the Rust sources. -/
theorem tri_eq_formula (n : Nat) : tri n = n * (n + 1) / 2 := by
  have h := two_mul_tri n
  generalize n * (n + 1) = k at h
  omega

theorem tri_lt_tri_succ (n : Nat) : tri n < tri (n + 1) := by
  rw [tri_succ]; omega

theorem tri_strictMono : StrictMono tri :=
  strictMono_nat_of_lt_succ tri_lt_tri_succ

theorem tri_mono {m n : Nat} (h : m ≤ n) : tri m ≤ tri n :=
  tri_strictMono.monotone h

theorem self_le_tri (n : Nat) : n ≤ tri n := by
  induction n with
  | zero => simp [tri_zero]
  | succ n ih => rw [tri_succ]; omega

/-- Auxiliary fuel-based search for the row containing a linear index. -/
def rowOfAux : Nat → Nat → Nat → Nat
  | 0, r, _ => r
  | fuel + 1, r, idx => if idx < tri (r + 1) then r else rowOfAux fuel (r + 1) idx

/-- Modelled from the spec: the row of a linear index, found by
triangular-number search (row `r` holds indices `[tri r, tri (r+1))`). -/
def rowOf (idx : Nat) : Nat := rowOfAux (idx + 1) 0 idx

theorem rowOfAux_spec (fuel : Nat) : ∀ r idx, tri r ≤ idx → idx < tri (r + fuel + 1) →
    tri (rowOfAux fuel r idx) ≤ idx ∧ idx < tri (rowOfAux fuel r idx + 1) := by
  induction fuel with
  | zero =>
    intro r idx h1 h2
    simp only [rowOfAux]
    exact ⟨h1, h2⟩
  | succ fuel ih =>
    intro r idx h1 h2
    by_cases h : idx < tri (r + 1)
    · simp only [rowOfAux, if_pos h]
      exact ⟨h1, h⟩
    · have h1' : tri (r + 1) ≤ idx := Nat.le_of_not_lt h
      have h2' : idx < tri (r + 1 + fuel + 1) := by
        have he : r + 1 + fuel + 1 = r + (fuel + 1) + 1 := by ring
        rw [he]; exact h2
      simp only [rowOfAux, if_neg h]
      exact ih (r + 1) idx h1' h2'

theorem rowOf_spec (idx : Nat) : tri (rowOf idx) ≤ idx ∧ idx < tri (rowOf idx + 1) := by
  have h2 : idx < tri (0 + (idx + 1) + 1) := by
    have := self_le_tri (idx + 2)
    have h := tri_mono (show idx + 2 ≤ 0 + (idx + 1) + 1 by omega)
    omega
  exact rowOfAux_spec (idx + 1) 0 idx (by simp [tri_zero]) h2

theorem rowOf_eq {r idx : Nat} (h1 : tri r ≤ idx) (h2 : idx < tri (r + 1)) :
    rowOf idx = r := by
  rcases rowOf_spec idx with ⟨ha, hb⟩
  by_contra hne
  rcases Nat.lt_or_ge (rowOf idx) r with h | h
  · have : tri (rowOf idx + 1) ≤ tri r := tri_mono (by omega)
    omega
  · have hgt : r < rowOf idx := by omega
    have : tri (r + 1) ≤ tri (rowOf idx) := tri_mono (by omega)
    omega

theorem rowOf_tri_add {r y : Nat} (h : y ≤ r) : rowOf (tri r + y) = r := by
  apply rowOf_eq
  · omega
  · rw [tri_succ]; omega

/-- Modelled from the spec: `toIndex` is the prefix sum of completed rows
(rows are indexed by decreasing `x` from `size - 1` down to `0`) plus the
offset `y` within the row. -/
def Coordinates.to_index (c : Coordinates) (size : Nat) : Nat :=
  tri (size - 1 - c.x) + c.y

/-- Modelled from the spec: `fromIndex` inverts `toIndex` via
triangular-number search. -/
def Coordinates.from_index (idx : Nat) (size : Nat) : Coordinates :=
  { x := size - 1 - rowOf idx
    y := idx - tri (rowOf idx)
    z := rowOf idx - (idx - tri (rowOf idx)) }

/-- Modelled from the spec: construction of a coordinate triple
(components not summing to `size - 1` are a programmer error, not
checked at this boundary). -/
def Coordinates.new (x y z : Nat) : Coordinates := { x := x, y := y, z := z }

/-- Modelled from the spec: the cell touches side A iff `x = 0`. -/
def Coordinates.touches_side_a (c : Coordinates) : Bool := c.x == 0

/-- Modelled from the spec: the cell touches side B iff `y = 0`. -/
def Coordinates.touches_side_b (c : Coordinates) : Bool := c.y == 0

/-- Modelled from the spec: the cell touches side C iff `z = 0`. -/
def Coordinates.touches_side_c (c : Coordinates) : Bool := c.z == 0

/-- The coordinate triple is valid for a board of side `size`:
`x + y + z = size - 1` with `size ≥ 1`. -/
def Coordinates.Valid (size : Nat) (c : Coordinates) : Prop :=
  c.x + c.y + c.z + 1 = size

instance (size : Nat) (c : Coordinates) : Decidable (c.Valid size) := by
  unfold Coordinates.Valid; infer_instance

theorem from_index_row_le {idx size : Nat} (h : idx < tri size) :
    rowOf idx + 1 ≤ size := by
  rcases rowOf_spec idx with ⟨ha, hb⟩
  by_contra hc
  have : tri size ≤ tri (rowOf idx) := tri_mono (by omega)
  omega

/-- Round trip: `to_index` inverts `from_index` on in-range indices. -/
theorem to_index_from_index {idx size : Nat} (h : idx < tri size) :
    (Coordinates.from_index idx size).to_index size = idx := by
  rcases rowOf_spec idx with ⟨ha, _⟩
  have hr : rowOf idx + 1 ≤ size := from_index_row_le h
  unfold Coordinates.from_index Coordinates.to_index
  simp only
  have hx : size - 1 - (size - 1 - rowOf idx) = rowOf idx := by omega
  rw [hx]
  omega

/-- `from_index` yields a valid coordinate for in-range indices. -/
theorem from_index_valid {idx size : Nat} (h : idx < tri size) :
    (Coordinates.from_index idx size).Valid size := by
  rcases rowOf_spec idx with ⟨ha, hb⟩
  have hr : rowOf idx + 1 ≤ size := from_index_row_le h
  have hy : idx - tri (rowOf idx) ≤ rowOf idx := by
    rw [tri_succ] at hb
    omega
  unfold Coordinates.from_index Coordinates.Valid
  simp only
  omega

theorem valid_row {size : Nat} {c : Coordinates} (h : c.Valid size) :
    size - 1 - c.x = c.y + c.z := by
  unfold Coordinates.Valid at h; omega

/-- `to_index` of a valid coordinate is in range. -/
theorem to_index_lt {size : Nat} {c : Coordinates} (h : c.Valid size) :
    c.to_index size < tri size := by
  unfold Coordinates.to_index
  rw [valid_row h]
  have h2 : tri (c.y + c.z + 1) ≤ tri size := by
    apply tri_mono
    unfold Coordinates.Valid at h
    omega
  calc tri (c.y + c.z) + c.y < tri (c.y + c.z + 1) := by rw [tri_succ]; omega
    _ ≤ tri size := h2

/-- Round trip: `from_index` inverts `to_index` on valid coordinates. -/
theorem from_index_to_index {size : Nat} {c : Coordinates} (h : c.Valid size) :
    Coordinates.from_index (c.to_index size) size = c := by
  have hrow := valid_row h
  have hidx : c.to_index size = tri (c.y + c.z) + c.y := by
    unfold Coordinates.to_index
    rw [hrow]
  have hr : rowOf (c.to_index size) = c.y + c.z := by
    rw [hidx]
    exact rowOf_tri_add (by omega)
  unfold Coordinates.Valid at h
  unfold Coordinates.from_index
  rw [hr, hidx]
  cases c with
  | mk x y z =>
    simp only [Coordinates.mk.injEq] at *
    refine ⟨by omega, by omega, by omega⟩

/-- `to_index` is injective on valid coordinates. -/
theorem to_index_injective {size : Nat} {c d : Coordinates}
    (hc : c.Valid size) (hd : d.Valid size)
    (h : c.to_index size = d.to_index size) : c = d := by
  have := from_index_to_index hc
  have hd' := from_index_to_index hd
  rw [h] at this
  rw [← this, hd']

/-! ## Board topology (`topology/mod.rs`, `topology/triangular.rs`) -/

/-- `type CellIndex = usize`. -/
abbrev CellIndex := Nat

/-- `type RegionMask = u32` — a bitset of board regions. -/
abbrev RegionMask := Nat

/-- `const SIDE_A: u32 = 1 << 0` — the side `x = 0`. -/
def SIDE_A : RegionMask := 1 <<< 0

/-- `const SIDE_B: u32 = 1 << 1` — the side `y = 0`. -/
def SIDE_B : RegionMask := 1 <<< 1

/-- `const SIDE_C: u32 = 1 << 2` — the side `z = 0`. -/
def SIDE_C : RegionMask := 1 <<< 2

/-- Topology for a regular triangular board: precomputed adjacency lists
and per-cell region masks, as built by `TriangularTopology::new`. -/
structure TriangularTopology where
  size : Nat
  adjacency : List (List CellIndex)
  regions : List RegionMask
deriving DecidableEq

/-- The neighbor coordinates pushed for one cell inside the
precomputation loop of `TriangularTopology::new` (the six lattice
directions, guarded by non-negativity of each decremented axis). -/
def neighborCoordsOf (c : Coordinates) : List Coordinates :=
  (if c.x > 0 then
    [Coordinates.new (c.x - 1) (c.y + 1) c.z, Coordinates.new (c.x - 1) c.y (c.z + 1)]
  else []) ++
  ((if c.y > 0 then
    [Coordinates.new (c.x + 1) (c.y - 1) c.z, Coordinates.new c.x (c.y - 1) (c.z + 1)]
  else []) ++
  (if c.z > 0 then
    [Coordinates.new (c.x + 1) c.y (c.z - 1), Coordinates.new c.x (c.y + 1) (c.z - 1)]
  else []))

/-- The region mask computed for one cell inside the precomputation loop
of `TriangularTopology::new` (`mask |= SIDE_*` for each touched side). -/
def cellRegionMask (c : Coordinates) : RegionMask :=
  ((0 ||| (if c.touches_side_a then SIDE_A else 0)) |||
    (if c.touches_side_b then SIDE_B else 0)) |||
    (if c.touches_side_c then SIDE_C else 0)

/-- `TriangularTopology::new`: precomputes every cell's neighbor list
(as indices) and region mask. -/
def TriangularTopology.new (size : Nat) : TriangularTopology :=
  { size := size
    adjacency := (List.range (size * (size + 1) / 2)).map
      (fun idx => (neighborCoordsOf (Coordinates.from_index idx size)).map
        (fun n => n.to_index size))
    regions := (List.range (size * (size + 1) / 2)).map
      (fun idx => cellRegionMask (Coordinates.from_index idx size)) }

/-- `BoardTopology::total_cells` for the triangular board. -/
def TriangularTopology.total_cells (t : TriangularTopology) : Nat :=
  t.size * (t.size + 1) / 2

/-- `BoardTopology::get_neighbors` for the triangular board
(`&self.adjacency[cell]`). -/
def TriangularTopology.get_neighbors (t : TriangularTopology) (cell : CellIndex) :
    List CellIndex :=
  t.adjacency.getD cell []

/-- `BoardTopology::get_cell_regions` for the triangular board
(`self.regions[cell]`). -/
def TriangularTopology.get_cell_regions (t : TriangularTopology) (cell : CellIndex) :
    RegionMask :=
  t.regions.getD cell 0

/-- `BoardTopology::winning_mask` for the triangular board: all three
side bits. -/
def TriangularTopology.winning_mask (_t : TriangularTopology) : RegionMask :=
  SIDE_A ||| SIDE_B ||| SIDE_C

theorem total_cells_eq_tri (size : Nat) : size * (size + 1) / 2 = tri size :=
  (tri_eq_formula size).symm

/-- Structural characterisation of membership in the neighbor list. -/
theorem mem_neighborCoordsOf_cases (c d : Coordinates) :
    d ∈ neighborCoordsOf c ↔
      ((0 < c.x ∧ (d = Coordinates.new (c.x - 1) (c.y + 1) c.z ∨
                   d = Coordinates.new (c.x - 1) c.y (c.z + 1))) ∨
       (0 < c.y ∧ (d = Coordinates.new (c.x + 1) (c.y - 1) c.z ∨
                   d = Coordinates.new c.x (c.y - 1) (c.z + 1))) ∨
       (0 < c.z ∧ (d = Coordinates.new (c.x + 1) c.y (c.z - 1) ∨
                   d = Coordinates.new c.x (c.y + 1) (c.z - 1)))) := by
  unfold neighborCoordsOf
  by_cases hx : 0 < c.x <;> by_cases hy : 0 < c.y <;> by_cases hz : 0 < c.z <;>
    simp [hx, hy, hz, or_assoc]

/-- Component-wise characterisation of membership in the neighbor list. -/
theorem mem_neighborCoordsOf {cx cy cz dx dy dz : Nat} :
    (⟨dx, dy, dz⟩ : Coordinates) ∈ neighborCoordsOf ⟨cx, cy, cz⟩ ↔
      ((0 < cx ∧ ((dx + 1 = cx ∧ dy = cy + 1 ∧ dz = cz) ∨
                  (dx + 1 = cx ∧ dy = cy ∧ dz = cz + 1))) ∨
       (0 < cy ∧ ((dx = cx + 1 ∧ dy + 1 = cy ∧ dz = cz) ∨
                  (dx = cx ∧ dy + 1 = cy ∧ dz = cz + 1))) ∨
       (0 < cz ∧ ((dx = cx + 1 ∧ dy = cy ∧ dz + 1 = cz) ∨
                  (dx = cx ∧ dy = cy + 1 ∧ dz + 1 = cz)))) := by
  rw [mem_neighborCoordsOf_cases]
  simp only [Coordinates.new, Coordinates.mk.injEq]
  constructor
  · rintro (⟨h, h1 | h1⟩ | ⟨h, h1 | h1⟩ | ⟨h, h1 | h1⟩) <;>
      [exact Or.inl ⟨h, Or.inl (by omega)⟩;
       exact Or.inl ⟨h, Or.inr (by omega)⟩;
       exact Or.inr (Or.inl ⟨h, Or.inl (by omega)⟩);
       exact Or.inr (Or.inl ⟨h, Or.inr (by omega)⟩);
       exact Or.inr (Or.inr ⟨h, Or.inl (by omega)⟩);
       exact Or.inr (Or.inr ⟨h, Or.inr (by omega)⟩)]
  · rintro (⟨h, h1 | h1⟩ | ⟨h, h1 | h1⟩ | ⟨h, h1 | h1⟩) <;>
      [exact Or.inl ⟨h, Or.inl (by omega)⟩;
       exact Or.inl ⟨h, Or.inr (by omega)⟩;
       exact Or.inr (Or.inl ⟨h, Or.inl (by omega)⟩);
       exact Or.inr (Or.inl ⟨h, Or.inr (by omega)⟩);
       exact Or.inr (Or.inr ⟨h, Or.inl (by omega)⟩);
       exact Or.inr (Or.inr ⟨h, Or.inr (by omega)⟩)]

theorem neighborCoordsOf_symm_mp {c d : Coordinates}
    (h : d ∈ neighborCoordsOf c) : c ∈ neighborCoordsOf d := by
  obtain ⟨cx, cy, cz⟩ := c
  obtain ⟨dx, dy, dz⟩ := d
  rw [mem_neighborCoordsOf] at h
  rw [mem_neighborCoordsOf]
  rcases h with ⟨h, h1 | h1⟩ | ⟨h, h1 | h1⟩ | ⟨h, h1 | h1⟩ <;>
    [exact Or.inr (Or.inl ⟨by omega, Or.inl (by omega)⟩);
     exact Or.inr (Or.inr ⟨by omega, Or.inl (by omega)⟩);
     exact Or.inl ⟨by omega, Or.inl (by omega)⟩;
     exact Or.inr (Or.inr ⟨by omega, Or.inr (by omega)⟩);
     exact Or.inl ⟨by omega, Or.inr (by omega)⟩;
     exact Or.inr (Or.inl ⟨by omega, Or.inr (by omega)⟩)]

/-- Neighboring is symmetric at the coordinate level. -/
theorem neighborCoordsOf_symm {c d : Coordinates} :
    d ∈ neighborCoordsOf c ↔ c ∈ neighborCoordsOf d :=
  ⟨neighborCoordsOf_symm_mp, neighborCoordsOf_symm_mp⟩

/-- Neighbors of a valid coordinate are valid (the lattice directions
preserve `x + y + z`). -/
theorem neighborCoordsOf_valid {size : Nat} {c d : Coordinates}
    (hc : c.Valid size) (hd : d ∈ neighborCoordsOf c) : d.Valid size := by
  obtain ⟨cx, cy, cz⟩ := c
  obtain ⟨dx, dy, dz⟩ := d
  rw [mem_neighborCoordsOf] at hd
  unfold Coordinates.Valid at *
  simp only at *
  rcases hd with ⟨h, h1 | h1⟩ | ⟨h, h1 | h1⟩ | ⟨h, h1 | h1⟩ <;> omega

/-- A cell is never its own neighbor. -/
theorem neighborCoordsOf_ne {c d : Coordinates}
    (hd : d ∈ neighborCoordsOf c) : d ≠ c := by
  obtain ⟨cx, cy, cz⟩ := c
  obtain ⟨dx, dy, dz⟩ := d
  rw [mem_neighborCoordsOf] at hd
  simp only [ne_eq, Coordinates.mk.injEq]
  rcases hd with ⟨h, h1 | h1⟩ | ⟨h, h1 | h1⟩ | ⟨h, h1 | h1⟩ <;> omega

/-- The neighbor list contributes two entries per strictly positive
coordinate. -/
theorem neighborCoordsOf_length (c : Coordinates) :
    (neighborCoordsOf c).length =
      (if 0 < c.x then 2 else 0) + ((if 0 < c.y then 2 else 0) +
        (if 0 < c.z then 2 else 0)) := by
  by_cases hx : 0 < c.x <;> by_cases hy : 0 < c.y <;> by_cases hz : 0 < c.z <;>
    simp [neighborCoordsOf, hx, hy, hz]

theorem getD_map_range {α : Type} (f : Nat → α) (n i : Nat) (d : α) (h : i < n) :
    ((List.range n).map f).getD i d = f i := by
  rw [List.getD_eq_getElem?_getD]
  simp [List.getElem?_map, List.getElem?_range, h]

/-- Reading the adjacency list of `TriangularTopology::new` at an
in-range cell. -/
theorem get_neighbors_new {size i : Nat} (h : i < tri size) :
    (TriangularTopology.new size).get_neighbors i =
      (neighborCoordsOf (Coordinates.from_index i size)).map
        (fun n => n.to_index size) := by
  unfold TriangularTopology.new TriangularTopology.get_neighbors
  simp only
  rw [getD_map_range]
  rw [total_cells_eq_tri]
  exact h

/-- Reading the region table of `TriangularTopology::new` at an
in-range cell. -/
theorem get_cell_regions_new {size i : Nat} (h : i < tri size) :
    (TriangularTopology.new size).get_cell_regions i =
      cellRegionMask (Coordinates.from_index i size) := by
  unfold TriangularTopology.new TriangularTopology.get_cell_regions
  simp only
  rw [getD_map_range]
  rw [total_cells_eq_tri]
  exact h

/-! ## List access helpers -/

theorem getD_set_eq {α : Type} (l : List α) (i : Nat) (v d : α) (h : i < l.length) :
    (l.set i v).getD i d = v := by
  simp [List.getD_eq_getElem?_getD, List.getElem?_set_self, h]

theorem getD_set_ne {α : Type} (l : List α) {i j : Nat} (v d : α) (h : i ≠ j) :
    (l.set i v).getD j d = l.getD j d := by
  simp [List.getD_eq_getElem?_getD, List.getElem?_set_ne h]

theorem getD_append_left {α : Type} (l m : List α) (i : Nat) (d : α)
    (h : i < l.length) : (l ++ m).getD i d = l.getD i d := by
  simp [List.getD_eq_getElem?_getD, List.getElem?_append, h]

theorem getD_append_right {α : Type} (l m : List α) (i : Nat) (d : α)
    (h : l.length ≤ i) : (l ++ m).getD i d = m.getD (i - l.length) d := by
  simp [List.getD_eq_getElem?_getD, List.getElem?_append, Nat.not_lt.mpr h]

theorem getD_replicate {α : Type} (n i : Nat) (v d : α) (h : i < n) :
    (List.replicate n v).getD i d = v := by
  simp [List.getD_eq_getElem?_getD, List.getElem?_replicate, h]

theorem getD_of_ge {α : Type} (l : List α) (i : Nat) (d : α) (h : l.length ≤ i) :
    l.getD i d = d := by
  rw [List.getD_eq_getElem?_getD, List.getElem?_eq_none h]
  rfl

/-! ## Union-find game engine (`topology/engine.rs`) -/

/-- Modelled from the spec: `PlayerId` is an opaque small integer
(`PlayerId::new(n)` / `.id()` are the identity on it). -/
abbrev PlayerId := Nat

/-- `struct DisjointSet`: one union-find arena node. -/
structure DisjointSet where
  parent : Nat
  regions_touched : RegionMask
deriving DecidableEq

/-- Parent pointer of node `i` (`self.sets[i].parent`); out-of-range
reads default to a self-parent and never occur in well-formed states. -/
def parentOf (sets : List DisjointSet) (i : Nat) : Nat :=
  (sets.getD i { parent := i, regions_touched := 0 }).parent

/-- Region mask of node `i` (`self.sets[i].regions_touched`). -/
def maskOf (sets : List DisjointSet) (i : Nat) : RegionMask :=
  (sets.getD i { parent := i, regions_touched := 0 }).regions_touched

/-- Fuel-based rendering of the recursive `GameEngine::find` with path
compression: returns the root and the compressed arena. -/
def findAux : Nat → List DisjointSet → Nat → Nat × List DisjointSet
  | 0, sets, i => (i, sets)
  | fuel + 1, sets, i =>
    if parentOf sets i = i then (i, sets)
    else
      let res := findAux fuel sets (parentOf sets i)
      (res.1, res.2.set i { parent := res.1, regions_touched := maskOf res.2 i })

/-- `GameEngine::find(i)`: find the representative of `i`'s set with
path compression.  Fuel `sets.length` always suffices because parent
pointers strictly increase along a chain (`ParentInv`). -/
def find (sets : List DisjointSet) (i : Nat) : Nat × List DisjointSet :=
  findAux sets.length sets i

/-- Pure parent-pointer chasing (no compression), fuel-based: the root
that `i` "leads to via parent pointers". Specification-only companion
of `find`. -/
def rootAux : Nat → List DisjointSet → Nat → Nat
  | 0, _, i => i
  | fuel + 1, sets, i =>
    if parentOf sets i = i then i else rootAux fuel sets (parentOf sets i)

/-- The root of node `i` by pure parent-pointer chasing. -/
def rootP (sets : List DisjointSet) (i : Nat) : Nat :=
  rootAux sets.length sets i

/-- `GameEngine::union(i, j)`: unite the two sets (re-parenting `j`'s
root under `i`'s root and OR-ing the masks) and report whether the
resulting root covers the winning mask `target`. -/
def unionSets (sets : List DisjointSet) (target : RegionMask) (i j : Nat) :
    Bool × List DisjointSet :=
  let fi := find sets i
  let root_i := fi.1
  let fj := find fi.2 j
  let root_j := fj.1
  let sets2 := fj.2
  let sets3 :=
    if root_i ≠ root_j then
      let s := sets2.set root_j
        { parent := root_i, regions_touched := maskOf sets2 root_j }
      s.set root_i
        { parent := parentOf s root_i
          regions_touched := maskOf s root_i ||| maskOf s root_j }
    else sets2
  ((maskOf sets3 root_i &&& target) == target, sets3)

/-- `struct GameEngine`, specialised (as in the crate) to the only
topology implementation, `TriangularTopology`. -/
structure GameEngine where
  topology : TriangularTopology
  state : List (Option PlayerId)
  sets : List DisjointSet
  cell_set_map : List (Option Nat)
deriving DecidableEq

/-- `GameEngine::new`. -/
def GameEngine.new (topology : TriangularTopology) : GameEngine :=
  { topology := topology
    state := List.replicate topology.total_cells none
    sets := []
    cell_set_map := List.replicate topology.total_cells none }

/-- One iteration of the neighbor loop in `GameEngine::make_move`:
union with the neighbor's set when it is owned by the same player. -/
def moveStep (state1 : List (Option PlayerId)) (map1 : List (Option Nat))
    (target : RegionMask) (new_set_idx : Nat) (player : PlayerId)
    (acc : Bool × List DisjointSet) (neighbor : CellIndex) :
    Bool × List DisjointSet :=
  match state1.getD neighbor none with
  | some p =>
    if p = player then
      -- `self.cell_set_map[neighbor].unwrap()`: `none` is unreachable for
      -- an occupied cell of a well-formed engine (Rust would panic).
      match map1.getD neighbor none with
      | some neighbor_set_idx =>
        let u := unionSets acc.2 target new_set_idx neighbor_set_idx
        (acc.1 || u.1, u.2)
      | none => acc
    else acc
  | none => acc

/-- `GameEngine::make_move(cell, player)`: returns `Ok(won)` after
placing the piece, creating its singleton set and uniting it with all
same-player neighbors, or an error for out-of-bounds / occupied cells. -/
def GameEngine.make_move (e : GameEngine) (cell : CellIndex) (player : PlayerId) :
    Except String (Bool × GameEngine) :=
  if cell ≥ e.topology.total_cells then
    .error ("Celda fuera de límites: " ++ toString cell)
  else if (e.state.getD cell none).isSome then
    .error ("Celda ocupada: " ++ toString cell)
  else
    let state1 := e.state.set cell (some player)
    let regions := e.topology.get_cell_regions cell
    let new_set_idx := e.sets.length
    let sets1 := e.sets ++ [{ parent := new_set_idx, regions_touched := regions }]
    let map1 := e.cell_set_map.set cell (some new_set_idx)
    let neighbors := e.topology.get_neighbors cell
    let target := e.topology.winning_mask
    let loop := neighbors.foldl (moveStep state1 map1 target new_set_idx player)
      (false, sets1)
    let fin :=
      if loop.1 then loop
      else
        let f := find loop.2 new_set_idx
        ((maskOf f.2 f.1 &&& target) == target, f.2)
    .ok (fin.1, { e with state := state1, sets := fin.2, cell_set_map := map1 })

/-! ## Union-find invariants

Parent pointers in this engine always point to nodes with an index at
least as large (fresh singleton sets are self-parented at the top of the
arena, unions re-parent an older root under the newest node, and path
compression re-parents to a root further up the chain), so every parent
chain strictly increases until its root.  `ParentInv` captures this. -/

/-- Every node's parent is at least itself and inside the arena. -/
def ParentInv (sets : List DisjointSet) : Prop :=
  ∀ k, k < sets.length → k ≤ parentOf sets k ∧ parentOf sets k < sets.length

theorem parentOf_of_ge (sets : List DisjointSet) {i : Nat}
    (h : sets.length ≤ i) : parentOf sets i = i := by
  unfold parentOf
  rw [getD_of_ge _ _ _ h]

theorem parentOf_gt {sets : List DisjointSet} {i : Nat} (hinv : ParentInv sets)
    (h : parentOf sets i ≠ i) : i < parentOf sets i ∧ i < sets.length := by
  by_cases hi : i < sets.length
  · have := hinv i hi
    omega
  · exact absurd (parentOf_of_ge sets (by omega)) h

theorem rootAux_of_parent_self {sets : List DisjointSet} {i : Nat}
    (h : parentOf sets i = i) : ∀ fuel, rootAux fuel sets i = i := by
  intro fuel
  cases fuel with
  | zero => rfl
  | succ fuel => simp [rootAux, h]

/-- Any two sufficient fuels give the same root. -/
theorem rootAux_fuel_irrel {sets : List DisjointSet} (hinv : ParentInv sets) :
    ∀ fuel fuel' i, sets.length ≤ fuel + i → sets.length ≤ fuel' + i →
      rootAux fuel sets i = rootAux fuel' sets i := by
  intro fuel
  induction fuel with
  | zero =>
    intro fuel' i h h'
    have : parentOf sets i = i := parentOf_of_ge sets (by omega)
    rw [rootAux_of_parent_self this, rootAux_of_parent_self this]
  | succ fuel ih =>
    intro fuel' i h h'
    by_cases hp : parentOf sets i = i
    · rw [rootAux_of_parent_self hp, rootAux_of_parent_self hp]
    · have hgt := parentOf_gt hinv hp
      cases fuel' with
      | zero => omega
      | succ fuel' =>
        simp only [rootAux, if_neg hp]
        exact ih fuel' (parentOf sets i) (by omega) (by omega)

theorem rootP_of_parent_self {sets : List DisjointSet} {i : Nat}
    (h : parentOf sets i = i) : rootP sets i = i :=
  rootAux_of_parent_self h _

theorem rootP_of_ge {sets : List DisjointSet} {i : Nat}
    (h : sets.length ≤ i) : rootP sets i = i :=
  rootP_of_parent_self (parentOf_of_ge sets h)

/-- Unfolding one step of the pure root chase. -/
theorem rootP_step {sets : List DisjointSet} {i : Nat} (hinv : ParentInv sets)
    (h : parentOf sets i ≠ i) : rootP sets i = rootP sets (parentOf sets i) := by
  have hgt := parentOf_gt hinv h
  unfold rootP
  have h1 : sets.length = (sets.length - 1) + 1 := by omega
  rw [h1]
  simp only [rootAux, if_neg h]
  exact rootAux_fuel_irrel hinv (sets.length - 1) ((sets.length - 1) + 1)
    (parentOf sets i) (by omega) (by omega)

/-- The root is a fixpoint of the parent map. -/
theorem rootP_root {sets : List DisjointSet} (hinv : ParentInv sets) (i : Nat) :
    parentOf sets (rootP sets i) = rootP sets i := by
  suffices h : ∀ fuel i, sets.length ≤ fuel + i →
      parentOf sets (rootAux fuel sets i) = rootAux fuel sets i by
    exact h sets.length i (by omega)
  intro fuel
  induction fuel with
  | zero =>
    intro i h
    simp only [rootAux]
    exact parentOf_of_ge sets (by omega)
  | succ fuel ih =>
    intro i h
    by_cases hp : parentOf sets i = i
    · simp only [rootAux, if_pos hp]
      exact hp
    · have hgt := parentOf_gt hinv hp
      simp only [rootAux, if_neg hp]
      exact ih (parentOf sets i) (by omega)

theorem rootP_idem {sets : List DisjointSet} (hinv : ParentInv sets) (i : Nat) :
    rootP sets (rootP sets i) = rootP sets i :=
  rootP_of_parent_self (rootP_root hinv i)

theorem rootP_ge {sets : List DisjointSet} (hinv : ParentInv sets) (i : Nat) :
    i ≤ rootP sets i := by
  suffices h : ∀ fuel i, i ≤ rootAux fuel sets i by exact h sets.length i
  intro fuel
  induction fuel with
  | zero => intro i; simp [rootAux]
  | succ fuel ih =>
    intro i
    by_cases hp : parentOf sets i = i
    · simp [rootAux, hp]
    · have hgt := parentOf_gt hinv hp
      simp only [rootAux, if_neg hp]
      have := ih (parentOf sets i)
      omega

theorem rootP_lt {sets : List DisjointSet} (hinv : ParentInv sets) {i : Nat}
    (h : i < sets.length) : rootP sets i < sets.length := by
  suffices hs : ∀ fuel i, i < sets.length → rootAux fuel sets i < sets.length by
    exact hs sets.length i h
  intro fuel
  induction fuel with
  | zero => intro i hi; simpa [rootAux] using hi
  | succ fuel ih =>
    intro i hi
    by_cases hp : parentOf sets i = i
    · simpa [rootAux, hp] using hi
    · simp only [rootAux, if_neg hp]
      exact ih (parentOf sets i) (hinv i hi).2

/-- `rootP` only depends on the parent pointers. -/
theorem rootP_congr {s1 s2 : List DisjointSet} (hlen : s1.length = s2.length)
    (hpar : ∀ j, parentOf s1 j = parentOf s2 j) (i : Nat) :
    rootP s1 i = rootP s2 i := by
  suffices h : ∀ fuel i, rootAux fuel s1 i = rootAux fuel s2 i by
    unfold rootP
    rw [hlen]
    exact h s2.length i
  intro fuel
  induction fuel with
  | zero => intro i; rfl
  | succ fuel ih =>
    intro i
    simp only [rootAux, hpar i]
    by_cases hp : parentOf s2 i = i
    · simp [hp]
    · simp [hp, ih]

theorem parentOf_set_eq (sets : List DisjointSet) (i : Nat) (v : DisjointSet)
    (h : i < sets.length) : parentOf (sets.set i v) i = v.parent := by
  unfold parentOf
  rw [getD_set_eq _ _ _ _ h]

theorem parentOf_set_ne (sets : List DisjointSet) {i j : Nat} (v : DisjointSet)
    (h : i ≠ j) : parentOf (sets.set i v) j = parentOf sets j := by
  unfold parentOf
  rw [getD_set_ne _ _ _ h]

theorem maskOf_set_eq (sets : List DisjointSet) (i : Nat) (v : DisjointSet)
    (h : i < sets.length) : maskOf (sets.set i v) i = v.regions_touched := by
  unfold maskOf
  rw [getD_set_eq _ _ _ _ h]

theorem maskOf_set_ne (sets : List DisjointSet) {i j : Nat} (v : DisjointSet)
    (h : i ≠ j) : maskOf (sets.set i v) j = maskOf sets j := by
  unfold maskOf
  rw [getD_set_ne _ _ _ h]

/-- Re-parenting a node directly to its own root (path compression)
keeps the parent invariant. -/
theorem reroot_ParentInv {sets : List DisjointSet} (hinv : ParentInv sets)
    {i : Nat} (hi : i < sets.length) {v : DisjointSet}
    (hv : v.parent = rootP sets i) : ParentInv (sets.set i v) := by
  intro k hk
  rw [List.length_set] at hk
  rw [List.length_set]
  by_cases hki : k = i
  · subst hki
    rw [parentOf_set_eq _ _ _ hi, hv]
    exact ⟨rootP_ge hinv k, rootP_lt hinv hi⟩
  · rw [parentOf_set_ne _ _ (fun he => hki he.symm)]
    exact hinv k hk

/-- Re-parenting a node directly to its own root (path compression)
does not change any node's root. -/
theorem reroot_rootP {sets : List DisjointSet} (hinv : ParentInv sets)
    {i : Nat} (hi : i < sets.length) {v : DisjointSet}
    (hv : v.parent = rootP sets i) :
    ∀ j, rootP (sets.set i v) j = rootP sets j := by
  have hinv' := reroot_ParentInv hinv hi hv
  suffices key : ∀ n j, sets.length - j ≤ n →
      rootP (sets.set i v) j = rootP sets j by
    intro j
    exact key sets.length j (by omega)
  intro n
  induction n with
  | zero =>
    intro j h
    rw [rootP_of_ge (by rw [List.length_set]; omega), rootP_of_ge (by omega)]
  | succ n ih =>
    intro j h
    by_cases hj : j < sets.length
    · by_cases hji : j = i
      · subst hji
        have hpar : parentOf (sets.set j v) j = rootP sets j :=
          (parentOf_set_eq _ _ _ hi).trans hv
        by_cases hrj : rootP sets j = j
        · rw [rootP_of_parent_self (hpar.trans hrj), hrj]
        · have hlt : j < rootP sets j :=
            lt_of_le_of_ne (rootP_ge hinv j) (fun he => hrj he.symm)
          rw [rootP_step hinv' (by rw [hpar]; exact fun he => hrj he), hpar]
          rw [ih (rootP sets j) (by omega)]
          exact rootP_idem hinv j
      · have hpar : parentOf (sets.set i v) j = parentOf sets j :=
          parentOf_set_ne _ _ (fun he => hji he.symm)
        by_cases hp : parentOf sets j = j
        · rw [rootP_of_parent_self (hpar.trans hp), rootP_of_parent_self hp]
        · have hgt := parentOf_gt hinv hp
          rw [rootP_step hinv' (by rw [hpar]; exact hp), hpar]
          rw [ih (parentOf sets j) (by omega)]
          exact (rootP_step hinv hp).symm
    · rw [rootP_of_ge (by rw [List.length_set]; omega), rootP_of_ge (by omega)]

/-- Re-parenting a root `r` under a root `t` at least as large (the
union step) keeps the parent invariant. -/
theorem link_ParentInv {sets : List DisjointSet} (hinv : ParentInv sets)
    {r t : Nat} (hr : r < sets.length) (ht : t < sets.length) (hrt : r ≤ t)
    {v : DisjointSet} (hv : v.parent = t) : ParentInv (sets.set r v) := by
  intro k hk
  rw [List.length_set] at hk
  rw [List.length_set]
  by_cases hkr : k = r
  · subst hkr
    rw [parentOf_set_eq _ _ _ hr, hv]
    exact ⟨hrt, ht⟩
  · rw [parentOf_set_ne _ _ (fun he => hkr he.symm)]
    exact hinv k hk

/-- Re-parenting a root `r` under another root `t` redirects exactly the
nodes whose root was `r`. -/
theorem link_rootP {sets : List DisjointSet} (hinv : ParentInv sets)
    {r t : Nat} (hr : r < sets.length) (hrr : parentOf sets r = r)
    (htl : t < sets.length) (htt : parentOf sets t = t) (hrt : r ≤ t)
    {v : DisjointSet} (hv : v.parent = t) :
    ∀ j, rootP (sets.set r v) j = if rootP sets j = r then t else rootP sets j := by
  have hinv' := link_ParentInv hinv hr htl hrt hv
  suffices key : ∀ n j, sets.length - j ≤ n →
      rootP (sets.set r v) j = if rootP sets j = r then t else rootP sets j by
    intro j
    exact key sets.length j (by omega)
  intro n
  induction n with
  | zero =>
    intro j h
    have hjr : rootP sets j = j := rootP_of_ge (by omega)
    rw [rootP_of_ge (by rw [List.length_set]; omega), hjr, if_neg (by omega)]
  | succ n ih =>
    intro j h
    by_cases hj : j < sets.length
    · by_cases hjr : j = r
      · subst hjr
        have hpar : parentOf (sets.set j v) j = t :=
          (parentOf_set_eq _ _ _ hr).trans hv
        have hroot : rootP sets j = j := rootP_of_parent_self hrr
        by_cases htr : t = j
        · rw [rootP_of_parent_self (hpar.trans htr), hroot, if_pos rfl, htr]
        · have hlt : j < t := by omega
          rw [rootP_step hinv' (by rw [hpar]; exact htr), hpar]
          rw [ih t (by omega)]
          have hroott : rootP sets t = t := rootP_of_parent_self htt
          rw [hroott, if_neg (by omega), hroot, if_pos rfl]
      · have hpar : parentOf (sets.set r v) j = parentOf sets j :=
          parentOf_set_ne _ _ (fun he => hjr he.symm)
        by_cases hp : parentOf sets j = j
        · rw [rootP_of_parent_self (hpar.trans hp), rootP_of_parent_self hp,
            if_neg (by omega)]
        · have hgt := parentOf_gt hinv hp
          rw [rootP_step hinv' (by rw [hpar]; exact hp), hpar]
          rw [ih (parentOf sets j) (by omega)]
          rw [← rootP_step hinv hp]
    · have hjr : rootP sets j = j := rootP_of_ge (by omega)
      rw [rootP_of_ge (by rw [List.length_set]; omega), hjr, if_neg (by omega)]

/-- Rewriting a node without changing its parent pointer (the mask
update of the union step) changes no root. -/
theorem set_same_parent_rootP {sets : List DisjointSet} {k : Nat}
    {v : DisjointSet} (hv : v.parent = parentOf sets k) :
    ∀ j, rootP (sets.set k v) j = rootP sets j := by
  apply rootP_congr (List.length_set ..)
  intro j
  by_cases hjk : j = k
  · subst hjk
    by_cases hj : j < sets.length
    · rw [parentOf_set_eq _ _ _ hj, hv]
    · rw [List.set_eq_of_length_le (by omega)]
  · exact parentOf_set_ne _ _ (fun he => hjk he.symm)

theorem set_same_parent_ParentInv {sets : List DisjointSet}
    (hinv : ParentInv sets) {k : Nat} {v : DisjointSet}
    (hv : v.parent = parentOf sets k) : ParentInv (sets.set k v) := by
  intro j hj
  rw [List.length_set] at hj
  rw [List.length_set]
  by_cases hjk : j = k
  · subst hjk
    rw [parentOf_set_eq _ _ _ hj, hv]
    exact hinv j hj
  · rw [parentOf_set_ne _ _ (fun he => hjk he.symm)]
    exact hinv j hj

/-- Appending a fresh self-parented node: parents of old nodes. -/
theorem append_parentOf {sets : List DisjointSet} (x : DisjointSet) {j : Nat}
    (hj : j < sets.length) : parentOf (sets ++ [x]) j = parentOf sets j := by
  unfold parentOf
  rw [getD_append_left _ _ _ _ hj]

theorem append_parentOf_self {sets : List DisjointSet} (m : RegionMask) :
    parentOf (sets ++ [{ parent := sets.length, regions_touched := m }])
      sets.length = sets.length := by
  unfold parentOf
  rw [getD_append_right _ _ _ _ (le_refl _)]
  simp

theorem append_maskOf {sets : List DisjointSet} (x : DisjointSet) {j : Nat}
    (hj : j < sets.length) : maskOf (sets ++ [x]) j = maskOf sets j := by
  unfold maskOf
  rw [getD_append_left _ _ _ _ hj]

theorem append_maskOf_self {sets : List DisjointSet} (p : Nat) (m : RegionMask) :
    maskOf (sets ++ [{ parent := p, regions_touched := m }])
      sets.length = m := by
  unfold maskOf
  rw [getD_append_right _ _ _ _ (le_refl _)]
  simp

/-- Appending a fresh self-parented node keeps the parent invariant. -/
theorem append_ParentInv {sets : List DisjointSet} (hinv : ParentInv sets)
    (m : RegionMask) :
    ParentInv (sets ++ [{ parent := sets.length, regions_touched := m }]) := by
  intro k hk
  rw [List.length_append, List.length_singleton] at hk
  rw [List.length_append, List.length_singleton]
  by_cases hkl : k < sets.length
  · rw [append_parentOf _ hkl]
    have := hinv k hkl
    omega
  · have hk' : k = sets.length := by omega
    subst hk'
    rw [append_parentOf_self]
    omega

/-- Appending a fresh self-parented node does not change old roots. -/
theorem append_rootP {sets : List DisjointSet} (hinv : ParentInv sets)
    (m : RegionMask) {j : Nat} (hj : j < sets.length) :
    rootP (sets ++ [{ parent := sets.length, regions_touched := m }]) j =
      rootP sets j := by
  have hinv' := append_ParentInv hinv m
  suffices key : ∀ n j, sets.length - j ≤ n → j < sets.length →
      rootP (sets ++ [{ parent := sets.length, regions_touched := m }]) j =
        rootP sets j by
    exact key sets.length j (by omega) hj
  intro n
  induction n with
  | zero => intro j h hj'; omega
  | succ n ih =>
    intro j h hj'
    have hpar : parentOf (sets ++ [{ parent := sets.length, regions_touched := m }]) j
        = parentOf sets j := append_parentOf _ hj'
    by_cases hp : parentOf sets j = j
    · rw [rootP_of_parent_self (hpar.trans hp), rootP_of_parent_self hp]
    · have hgt := parentOf_gt hinv hp
      rw [rootP_step hinv' (by rw [hpar]; exact hp), hpar]
      rw [ih (parentOf sets j) (by omega) (hinv j hj').2]
      exact (rootP_step hinv hp).symm

theorem append_rootP_self {sets : List DisjointSet} (m : RegionMask) :
    rootP (sets ++ [{ parent := sets.length, regions_touched := m }])
      sets.length = sets.length :=
  rootP_of_parent_self (append_parentOf_self m)

/-- Full specification of `find` (with enough fuel): it returns the pure
root, keeps length, the parent invariant, all roots, all masks, and all
self-parented nodes. -/
theorem findAux_zero (sets : List DisjointSet) (i : Nat) :
    findAux 0 sets i = (i, sets) := rfl

theorem findAux_succ_root {sets : List DisjointSet} {i : Nat} (fuel : Nat)
    (hp : parentOf sets i = i) : findAux (fuel + 1) sets i = (i, sets) := by
  simp [findAux, hp]

theorem findAux_succ_step {sets : List DisjointSet} {i : Nat} (fuel : Nat)
    (hp : parentOf sets i ≠ i) :
    findAux (fuel + 1) sets i =
      ((findAux fuel sets (parentOf sets i)).1,
        (findAux fuel sets (parentOf sets i)).2.set i
          { parent := (findAux fuel sets (parentOf sets i)).1
            regions_touched := maskOf (findAux fuel sets (parentOf sets i)).2 i }) := by
  simp [findAux, hp]

theorem findAux_spec {sets : List DisjointSet} (hinv : ParentInv sets) :
    ∀ fuel i, sets.length ≤ fuel + i →
      (findAux fuel sets i).1 = rootP sets i ∧
      (findAux fuel sets i).2.length = sets.length ∧
      ParentInv (findAux fuel sets i).2 ∧
      (∀ j, rootP (findAux fuel sets i).2 j = rootP sets j) ∧
      (∀ j, maskOf (findAux fuel sets i).2 j = maskOf sets j) ∧
      (∀ j, parentOf sets j = j → parentOf (findAux fuel sets i).2 j = j) := by
  intro fuel
  induction fuel with
  | zero =>
    intro i h
    rw [findAux_zero]
    exact ⟨(rootP_of_ge (by omega)).symm, rfl, hinv, fun j => rfl, fun j => rfl,
      fun j hj => hj⟩
  | succ fuel ih =>
    intro i h
    by_cases hp : parentOf sets i = i
    · rw [findAux_succ_root fuel hp]
      exact ⟨(rootP_of_parent_self hp).symm, rfl, hinv, fun j => rfl, fun j => rfl,
        fun j hj => hj⟩
    · have hgt := parentOf_gt hinv hp
      obtain ⟨ih1, ih2, ih3, ih4, ih5, ih6⟩ :=
        ih (parentOf sets i) (by omega)
      rw [findAux_succ_step fuel hp]
      set res := findAux fuel sets (parentOf sets i) with hres
      have hri : res.1 = rootP sets i := by
        rw [ih1]
        exact (rootP_step hinv hp).symm
      have hlen : i < res.2.length := by omega
      have hv : ({ parent := res.1, regions_touched := maskOf res.2 i }
          : DisjointSet).parent = rootP res.2 i := by
        simp only
        rw [ih4 i, hri]
      refine ⟨hri, ?_, ?_, ?_, ?_, ?_⟩
      · rw [List.length_set, ih2]
      · exact reroot_ParentInv ih3 hlen hv
      · intro j
        rw [reroot_rootP ih3 hlen hv j, ih4 j]
      · intro j
        by_cases hji : j = i
        · subst hji
          rw [maskOf_set_eq _ _ _ hlen]
          exact ih5 j
        · rw [maskOf_set_ne _ _ (fun he => hji he.symm)]
          exact ih5 j
      · intro j hj
        have hji : j ≠ i := fun he => hp (he ▸ hj)
        rw [parentOf_set_ne _ _ (fun he => hji he.symm)]
        exact ih6 j hj

/-- `find` specification at its actual fuel. -/
theorem find_spec {sets : List DisjointSet} (hinv : ParentInv sets) (i : Nat) :
    (find sets i).1 = rootP sets i ∧
    (find sets i).2.length = sets.length ∧
    ParentInv (find sets i).2 ∧
    (∀ j, rootP (find sets i).2 j = rootP sets j) ∧
    (∀ j, maskOf (find sets i).2 j = maskOf sets j) ∧
    (∀ j, parentOf sets j = j → parentOf (find sets i).2 j = j) :=
  findAux_spec hinv sets.length i (by omega)

/-- Full specification of `union` for the call pattern of `make_move`
(the second root is at most the first, which is the freshly created
top-of-arena node there).  The returned flag is exactly "the surviving
root's merged mask covers `target`". -/
theorem unionSets_spec {sets : List DisjointSet} (hinv : ParentInv sets)
    {i j : Nat} (hi : i < sets.length) (hj : j < sets.length)
    (hji : rootP sets j ≤ rootP sets i) (target : RegionMask) :
    (unionSets sets target i j).2.length = sets.length ∧
    ParentInv (unionSets sets target i j).2 ∧
    maskOf (unionSets sets target i j).2 (rootP sets i) =
      maskOf sets (rootP sets i) ||| maskOf sets (rootP sets j) ∧
    (∀ k, k ≠ rootP sets i →
      maskOf (unionSets sets target i j).2 k = maskOf sets k) ∧
    (∀ k, rootP (unionSets sets target i j).2 k =
      if rootP sets k = rootP sets j then rootP sets i else rootP sets k) ∧
    parentOf (unionSets sets target i j).2 (rootP sets i) = rootP sets i ∧
    (unionSets sets target i j).1 =
      (((maskOf sets (rootP sets i) ||| maskOf sets (rootP sets j)) &&& target)
        == target) := by
  obtain ⟨f1, f2, f3, f4, f5, f6⟩ := find_spec hinv i
  obtain ⟨g1, g2, g3, g4, g5, g6⟩ := find_spec f3 j
  unfold unionSets
  simp only
  set ri := rootP sets i with hri
  set rj := rootP sets j with hrj
  have hroot_i : (find sets i).1 = ri := f1
  have hroot_j : (find (find sets i).2 j).1 = rj := by rw [g1, f4]
  have hril : ri < sets.length := rootP_lt hinv hi
  have hrjl : rj < sets.length := rootP_lt hinv hj
  have hsets2_len : (find (find sets i).2 j).2.length = sets.length := by
    rw [g2, f2]
  have hmask2 : ∀ k, maskOf (find (find sets i).2 j).2 k = maskOf sets k := by
    intro k
    rw [g5, f5]
  have hroot2 : ∀ k, rootP (find (find sets i).2 j).2 k = rootP sets k := by
    intro k
    rw [g4, f4]
  have hpar_ri : parentOf (find (find sets i).2 j).2 ri = ri := by
    have h0 := rootP_root g3 i
    rw [hroot2 i, ← hri] at h0
    exact h0
  have hpar_rj : parentOf (find (find sets i).2 j).2 rj = rj := by
    have h0 := rootP_root g3 j
    rw [hroot2 j, ← hrj] at h0
    exact h0
  rw [hroot_i, hroot_j]
  by_cases hrij : ri = rj
  · have hnn : ¬(ri ≠ rj) := fun hne => hne hrij
    rw [if_neg hnn]
    refine ⟨hsets2_len, g3, ?_, fun k _ => hmask2 k, ?_, hpar_ri, ?_⟩
    · rw [hmask2, ← hrij, Nat.or_self]
    · intro k
      rw [hroot2 k]
      by_cases hk : rootP sets k = rj
      · rw [if_pos hk, hk, hrij]
      · rw [if_neg hk]
    · rw [hmask2, ← hrij, Nat.or_self]
  · simp only [ne_eq, hrij, not_false_eq_true, if_true, ite_true]
    have hrjri : rj < ri := lt_of_le_of_ne hji (fun he => hrij he.symm)
    have hrjl2 : rj < (find (find sets i).2 j).2.length := by omega
    have hril2 : ri < (find (find sets i).2 j).2.length := by omega
    set sets2 := (find (find sets i).2 j).2 with hsets2
    set s := sets2.set rj
      { parent := ri, regions_touched := maskOf sets2 rj } with hs
    have hlink_inv : ParentInv s :=
      link_ParentInv g3 hrjl2 hril2 (by omega) rfl
    have hlink_root : ∀ k, rootP s k = if rootP sets2 k = rj then ri
        else rootP sets2 k :=
      link_rootP g3 hrjl2 hpar_rj hril2 hpar_ri (by omega) rfl
    have hs_len : s.length = sets.length := by
      rw [hs, List.length_set, hsets2_len]
    have hpar_s_ri : parentOf s ri = ri := by
      rw [hs, parentOf_set_ne _ _ (by omega)]
      exact hpar_ri
    have hmask_s_ri : maskOf s ri = maskOf sets ri := by
      rw [hs, maskOf_set_ne _ _ (by omega)]
      exact hmask2 ri
    have hmask_s_rj : maskOf s rj = maskOf sets rj := by
      rw [hs, maskOf_set_eq _ _ _ hrjl2]
      exact hmask2 rj
    have hfin_root : ∀ k, rootP (s.set ri
        { parent := parentOf s ri
          regions_touched := maskOf s ri ||| maskOf s rj }) k = rootP s k :=
      set_same_parent_rootP rfl
    have hfin_inv : ParentInv (s.set ri
        { parent := parentOf s ri
          regions_touched := maskOf s ri ||| maskOf s rj }) :=
      set_same_parent_ParentInv hlink_inv rfl
    have hril_s : ri < s.length := by
      rw [hs, List.length_set]
      exact hril2
    refine ⟨?_, hfin_inv, ?_, ?_, ?_, ?_, ?_⟩
    · rw [List.length_set, hs_len]
    · rw [maskOf_set_eq _ _ _ hril_s]
      simp only
      rw [hmask_s_ri, hmask_s_rj]
    · intro k hk
      rw [maskOf_set_ne _ _ (fun he => hk he.symm)]
      by_cases hkj : k = rj
      · subst hkj
        exact hmask_s_rj
      · rw [hs, maskOf_set_ne _ _ (fun he => hkj he.symm)]
        exact hmask2 k
    · intro k
      rw [hfin_root k, hlink_root k, hroot2 k]
    · rw [parentOf_set_eq _ _ _ hril_s]
      simp only
      exact hpar_s_ri
    · rw [maskOf_set_eq _ _ _ hril_s]
      simp only
      rw [hmask_s_ri, hmask_s_rj]

/-! ## Bitwise OR over lists of masks -/

/-- Bitwise OR of a list of region masks. -/
def orList (l : List RegionMask) : RegionMask := l.foldr (· ||| ·) 0

theorem orList_nil : orList [] = 0 := rfl

theorem orList_cons (x : RegionMask) (l : List RegionMask) :
    orList (x :: l) = x ||| orList l := rfl

theorem orList_append (l1 l2 : List RegionMask) :
    orList (l1 ++ l2) = orList l1 ||| orList l2 := by
  induction l1 with
  | nil => simp [orList_nil, Nat.zero_or]
  | cons x t ih =>
    simp only [List.cons_append, orList_cons, ih, Nat.lor_assoc]

theorem testBit_orList (l : List RegionMask) (b : Nat) :
    (orList l).testBit b = l.any (fun x => x.testBit b) := by
  induction l with
  | nil => simp [orList_nil]
  | cons x t ih => simp [orList_cons, Nat.testBit_lor, ih]

/-- OR-ing in an element that is already in the list changes nothing. -/
theorem orList_absorb {l : List RegionMask} {a : RegionMask} (h : a ∈ l) :
    orList l ||| a = orList l := by
  apply Nat.eq_of_testBit_eq
  intro b
  simp only [Nat.testBit_lor, testBit_orList]
  by_cases hb : a.testBit b = true
  · rw [hb, Bool.or_true]
    exact (List.any_eq_true.mpr ⟨a, h, hb⟩).symm
  · rw [Bool.not_eq_true] at hb
    rw [hb, Bool.or_false]

/-- Covering `target` is preserved when the mask grows. -/
theorem covers_mono {m x target : RegionMask} (h : m &&& target = target) :
    (m ||| x) &&& target = target := by
  apply Nat.eq_of_testBit_eq
  intro b
  have hb := congrArg (fun v => Nat.testBit v b) h
  simp only [Nat.testBit_land, Nat.testBit_lor] at *
  cases ht : target.testBit b <;> cases hm : m.testBit b <;>
    simp [ht, hm] at hb ⊢

theorem maskOf_of_ge {sets : List DisjointSet} {i : Nat}
    (h : sets.length ≤ i) : maskOf sets i = 0 := by
  unfold maskOf
  rw [getD_of_ge _ _ _ h]

/-! ## Engine well-formedness and the `make_move` master lemma -/

/-- The set indices of the cells of `L` occupied by `player` (the sets
the neighbor loop of `make_move` unions with the new node, when `L` is
the neighbor list). -/
def spSetsOn (e : GameEngine) (L : List CellIndex) (player : PlayerId) : List Nat :=
  (L.filter (fun nb => e.state.getD nb none == some player)).map
    (fun nb => (e.cell_set_map.getD nb none).getD 0)

/-- Whether root `r` gets merged into the new node when the cells of `L`
are processed by the neighbor loop. -/
def mergedOn (e : GameEngine) (L : List CellIndex) (player : PlayerId) (r : Nat) : Bool :=
  (spSetsOn e L player).any (fun s => rootP e.sets s == r)

/-- Set indices of the same-player neighbors of `cell`. -/
def samePlayerNbrSets (e : GameEngine) (cell : CellIndex) (player : PlayerId) : List Nat :=
  spSetsOn e (e.topology.get_neighbors cell) player

/-- Whether root `r` is merged into the new node by `make_move cell`. -/
def mergedRootB (e : GameEngine) (cell : CellIndex) (player : PlayerId) (r : Nat) : Bool :=
  mergedOn e (e.topology.get_neighbors cell) player r

/-- The mask that ends up on the node created by `make_move`: the placed
cell's own regions OR-ed with the masks of the roots of all same-player
neighbor sets. -/
def newRootMask (e : GameEngine) (cell : CellIndex) (player : PlayerId) : RegionMask :=
  e.topology.get_cell_regions cell |||
    orList ((samePlayerNbrSets e cell player).map
      (fun k => maskOf e.sets (rootP e.sets k)))

/-- Structural well-formedness of an engine state: the occupancy vector,
set map and union-find arena are mutually consistent, and the topology's
neighbor lists are in range and irreflexive. -/
structure EngineWF (e : GameEngine) : Prop where
  state_len : e.state.length = e.topology.total_cells
  map_len : e.cell_set_map.length = e.topology.total_cells
  pinv : ParentInv e.sets
  sync : ∀ c, c < e.topology.total_cells →
    ((e.state.getD c none).isSome ↔ (e.cell_set_map.getD c none).isSome)
  map_range : ∀ c k, c < e.topology.total_cells →
    e.cell_set_map.getD c none = some k → k < e.sets.length
  nbr_lt : ∀ c nb, c < e.topology.total_cells →
    nb ∈ e.topology.get_neighbors c → nb < e.topology.total_cells
  nbr_ne : ∀ c nb, c < e.topology.total_cells →
    nb ∈ e.topology.get_neighbors c → nb ≠ c

theorem spSetsOn_append (e : GameEngine) (L1 L2 : List CellIndex) (player : PlayerId) :
    spSetsOn e (L1 ++ L2) player = spSetsOn e L1 player ++ spSetsOn e L2 player := by
  simp [spSetsOn, List.filter_append]

theorem mergedOn_append (e : GameEngine) (L1 L2 : List CellIndex) (player : PlayerId)
    (r : Nat) : mergedOn e (L1 ++ L2) player r =
      (mergedOn e L1 player r || mergedOn e L2 player r) := by
  simp [mergedOn, spSetsOn_append]

theorem spSetsOn_nil (e : GameEngine) (player : PlayerId) :
    spSetsOn e [] player = [] := rfl

theorem mergedOn_nil (e : GameEngine) (player : PlayerId) (r : Nat) :
    mergedOn e [] player r = false := rfl

theorem spSetsOn_single_skip {e : GameEngine} {nb : CellIndex} {player : PlayerId}
    (h : e.state.getD nb none ≠ some player) :
    spSetsOn e [nb] player = [] := by
  have h' : e.state[nb]?.getD none ≠ some player := by
    rw [← List.getD_eq_getElem?_getD]
    exact h
  simp [spSetsOn, h']

theorem spSetsOn_single_hit {e : GameEngine} {nb : CellIndex} {player : PlayerId}
    {k : Nat} (h : e.state.getD nb none = some player)
    (hm : e.cell_set_map.getD nb none = some k) :
    spSetsOn e [nb] player = [k] := by
  have h' : e.state[nb]?.getD none = some player := by
    rw [← List.getD_eq_getElem?_getD]
    exact h
  have hm' : e.cell_set_map[nb]?.getD none = some k := by
    rw [← List.getD_eq_getElem?_getD]
    exact hm
  simp [spSetsOn, h', hm']

/-- Every set index produced by the neighbor loop is inside the arena. -/
theorem spSetsOn_lt {e : GameEngine} (hwf : EngineWF e) {L : List CellIndex}
    {player : PlayerId} (hL : ∀ nb ∈ L, nb < e.topology.total_cells) :
    ∀ s ∈ spSetsOn e L player, s < e.sets.length := by
  intro s hs
  unfold spSetsOn at hs
  rw [List.mem_map] at hs
  obtain ⟨nb, hnb, hval⟩ := hs
  rw [List.mem_filter] at hnb
  obtain ⟨hnbL, hocc⟩ := hnb
  rw [beq_iff_eq] at hocc
  have hlt := hL nb hnbL
  have hsome : (e.cell_set_map.getD nb none).isSome := by
    rw [← hwf.sync nb hlt, hocc]
    rfl
  obtain ⟨k, hk⟩ := Option.isSome_iff_exists.mp hsome
  rw [hk] at hval
  simp only [Option.getD_some] at hval
  subst hval
  exact hwf.map_range nb k hlt hk

theorem mergedOn_lt {e : GameEngine} (hwf : EngineWF e) {L : List CellIndex}
    {player : PlayerId} {r : Nat} (hL : ∀ nb ∈ L, nb < e.topology.total_cells)
    (h : mergedOn e L player r = true) : r < e.sets.length := by
  unfold mergedOn at h
  rw [List.any_eq_true] at h
  obtain ⟨s, hs, hr⟩ := h
  rw [beq_iff_eq] at hr
  subst hr
  exact rootP_lt hwf.pinv (spSetsOn_lt hwf hL s hs)

/-- Invariant carried through the neighbor loop of `make_move`: after
the cells of `Lp` have been processed, the accumulator's arena has one
extra node `n` (the new piece's), `n` is a self-parented root whose mask
is the cell's regions OR-ed with the masks of all merged roots, all
other masks are untouched, roots are redirected to `n` exactly for the
merged classes, and the won-flag is set iff some neighbor was processed
and the new root's mask covers the winning mask. -/
structure LoopInv (e : GameEngine) (cell : CellIndex) (player : PlayerId)
    (Lp : List CellIndex) (acc : Bool × List DisjointSet) : Prop where
  len : acc.2.length = e.sets.length + 1
  pinv : ParentInv acc.2
  pself : parentOf acc.2 e.sets.length = e.sets.length
  maskn : maskOf acc.2 e.sets.length =
    e.topology.get_cell_regions cell |||
      orList ((spSetsOn e Lp player).map (fun k => maskOf e.sets (rootP e.sets k)))
  masko : ∀ k, k ≠ e.sets.length → maskOf acc.2 k = maskOf e.sets k
  roots : ∀ k, rootP acc.2 k =
    if mergedOn e Lp player (rootP e.sets k) then e.sets.length else rootP e.sets k
  wonv : acc.1 = (!(spSetsOn e Lp player).isEmpty &&
    ((maskOf acc.2 e.sets.length &&& e.topology.winning_mask)
      == e.topology.winning_mask))

/-- The loop invariant holds before any neighbor is processed. -/
theorem loopInv_base (e : GameEngine) (hwf : EngineWF e) (cell : CellIndex)
    (player : PlayerId) :
    LoopInv e cell player [] (false,
      e.sets ++ [{ parent := e.sets.length
                   regions_touched := e.topology.get_cell_regions cell }]) := by
  constructor
  · simp
  · exact append_ParentInv hwf.pinv _
  · exact append_parentOf_self _
  · rw [append_maskOf_self]
    simp [spSetsOn_nil, orList_nil, Nat.or_zero]
  · intro k hk
    by_cases hkl : k < e.sets.length
    · exact append_maskOf _ hkl
    · rw [maskOf_of_ge (by simp; omega), maskOf_of_ge (by omega)]
  · intro k
    rw [mergedOn_nil, if_neg (by simp)]
    by_cases hkl : k < e.sets.length
    · exact append_rootP hwf.pinv _ hkl
    · by_cases hkn : k = e.sets.length
      · subst hkn
        rw [append_rootP_self, rootP_of_ge (by omega)]
      · rw [rootP_of_ge (by simp; omega), rootP_of_ge (by omega)]
  · simp [spSetsOn_nil]

/-- A neighbor that is empty or owned by the other player leaves the
loop invariant untouched. -/
theorem loopInv_skip {e : GameEngine} {cell nb : CellIndex} {player : PlayerId}
    {Lp : List CellIndex} {acc : Bool × List DisjointSet}
    (hInv : LoopInv e cell player Lp acc)
    (hskip : spSetsOn e [nb] player = []) :
    LoopInv e cell player (Lp ++ [nb]) acc := by
  obtain ⟨l1, l2, l3, l4, l5, l6, l7⟩ := hInv
  have hmerged : ∀ r, mergedOn e [nb] player r = false := by
    intro r
    simp [mergedOn, hskip]
  constructor
  · exact l1
  · exact l2
  · exact l3
  · rw [spSetsOn_append, hskip, List.append_nil]
    exact l4
  · exact l5
  · intro m
    rw [mergedOn_append, hmerged, Bool.or_false]
    exact l6 m
  · rw [spSetsOn_append, hskip, List.append_nil]
    exact l7

theorem moveStep_none {state1 : List (Option PlayerId)} {map1 : List (Option Nat)}
    {t : RegionMask} {n : Nat} {pl : PlayerId} {acc : Bool × List DisjointSet}
    {nb : CellIndex} (h : state1.getD nb none = none) :
    moveStep state1 map1 t n pl acc nb = acc := by
  unfold moveStep
  rw [h]

theorem moveStep_other {state1 : List (Option PlayerId)} {map1 : List (Option Nat)}
    {t : RegionMask} {n : Nat} {pl p : PlayerId} {acc : Bool × List DisjointSet}
    {nb : CellIndex} (h : state1.getD nb none = some p) (hp : p ≠ pl) :
    moveStep state1 map1 t n pl acc nb = acc := by
  unfold moveStep
  rw [h]
  simp [hp]

theorem moveStep_union {state1 : List (Option PlayerId)} {map1 : List (Option Nat)}
    {t : RegionMask} {n : Nat} {pl : PlayerId} {acc : Bool × List DisjointSet}
    {nb : CellIndex} {k : Nat} (h : state1.getD nb none = some pl)
    (hk : map1.getD nb none = some k) :
    moveStep state1 map1 t n pl acc nb =
      (acc.1 || (unionSets acc.2 t n k).1, (unionSets acc.2 t n k).2) := by
  unfold moveStep
  rw [h, hk]
  simp

/-- Processing one neighbor of the placed cell preserves the loop
invariant. -/
theorem moveStep_inv {e : GameEngine} (hwf : EngineWF e) {cell : CellIndex}
    {player : PlayerId} (hcell : cell < e.topology.total_cells)
    {nb : CellIndex} (hnb : nb ∈ e.topology.get_neighbors cell)
    {Lp : List CellIndex} {acc : Bool × List DisjointSet}
    (hInv : LoopInv e cell player Lp acc) :
    LoopInv e cell player (Lp ++ [nb])
      (moveStep (e.state.set cell (some player))
        (e.cell_set_map.set cell (some e.sets.length))
        e.topology.winning_mask e.sets.length player acc nb) := by
  have hnb_lt : nb < e.topology.total_cells := hwf.nbr_lt cell nb hcell hnb
  have hnb_ne : nb ≠ cell := hwf.nbr_ne cell nb hcell hnb
  have hstate1 : (e.state.set cell (some player)).getD nb none =
      e.state.getD nb none :=
    getD_set_ne _ _ _ (fun he => hnb_ne he.symm)
  have hmap1 : (e.cell_set_map.set cell (some e.sets.length)).getD nb none =
      e.cell_set_map.getD nb none :=
    getD_set_ne _ _ _ (fun he => hnb_ne he.symm)
  cases hocc : e.state.getD nb none with
  | none =>
    rw [moveStep_none (hstate1.trans hocc)]
    exact loopInv_skip hInv (spSetsOn_single_skip (by rw [hocc]; exact fun h => by cases h))
  | some p =>
    by_cases hp : p = player
    · rw [hp] at hocc
      have hsomek : (e.cell_set_map.getD nb none).isSome := by
        rw [← hwf.sync nb hnb_lt, hocc]
        rfl
      obtain ⟨k, hk⟩ := Option.isSome_iff_exists.mp hsomek
      rw [moveStep_union (hstate1.trans hocc) (hmap1.trans hk)]
      have hklt : k < e.sets.length := hwf.map_range nb k hnb_lt hk
      have hsp : spSetsOn e [nb] player = [k] := spSetsOn_single_hit hocc hk
      have hmerged1 : ∀ r, mergedOn e [nb] player r = (rootP e.sets k == r) := by
        intro r
        simp [mergedOn, hsp]
      obtain ⟨l1, l2, l3, l4, l5, l6, l7⟩ := hInv
      have hrootn : rootP acc.2 e.sets.length = e.sets.length :=
        rootP_of_parent_self l3
      have hrklt : rootP e.sets k < e.sets.length := rootP_lt hwf.pinv hklt
      have hrootk : rootP acc.2 k =
          if mergedOn e Lp player (rootP e.sets k) then e.sets.length
          else rootP e.sets k := l6 k
      have hn_lt : e.sets.length < acc.2.length := by omega
      have hk_lt : k < acc.2.length := by omega
      have hji : rootP acc.2 k ≤ rootP acc.2 e.sets.length := by
        rw [hrootn, hrootk]
        split <;> omega
      obtain ⟨u1, u2, u3, u4, u5, u6, u7⟩ :=
        unionSets_spec l2 hn_lt hk_lt hji e.topology.winning_mask
      rw [hrootn] at u3 u4 u5 u6 u7
      constructor
      · rw [u1]
        exact l1
      · exact u2
      · exact u6
      · rw [u3]
        simp only [spSetsOn_append, hsp, List.map_append, List.map_cons,
          List.map_nil, orList_append, orList_cons, orList_nil, Nat.or_zero]
        by_cases hm : mergedOn e Lp player (rootP e.sets k) = true
        · have hmem : maskOf e.sets (rootP e.sets k) ∈
              (spSetsOn e Lp player).map
                (fun s => maskOf e.sets (rootP e.sets s)) := by
            unfold mergedOn at hm
            rw [List.any_eq_true] at hm
            obtain ⟨s, hs, hr⟩ := hm
            rw [beq_iff_eq] at hr
            exact List.mem_map.mpr ⟨s, hs, by rw [hr]⟩
          rw [hrootk, if_pos hm, Nat.or_self, l4, orList_absorb hmem]
        · rw [hrootk, if_neg hm, l5 (rootP e.sets k) (by omega), l4,
            Nat.lor_assoc]
      · intro m hm
        rw [u4 m hm]
        exact l5 m hm
      · intro m
        rw [u5 m, hrootk, l6 m, mergedOn_append, hmerged1]
        have hcongr : rootP e.sets k = rootP e.sets m →
            mergedOn e Lp player (rootP e.sets k) =
              mergedOn e Lp player (rootP e.sets m) := fun h => by rw [h]
        split_ifs with h1 h2 h3 h4 h5 <;>
          first
          | rfl
          | (simp_all [Bool.or_eq_true, beq_iff_eq])
      · rw [spSetsOn_append, hsp]
        have hne : ¬(spSetsOn e Lp player ++ [k]).isEmpty = true := by
          simp
        rw [Bool.not_eq_true] at hne
        rw [hne, Bool.not_false, Bool.true_and]
        have hu1 : (unionSets acc.2 e.topology.winning_mask e.sets.length k).1 =
            ((maskOf (unionSets acc.2 e.topology.winning_mask e.sets.length k).2
                e.sets.length &&& e.topology.winning_mask)
              == e.topology.winning_mask) := by
          rw [u7, u3]
        rw [hu1]
        cases hacc : acc.1 with
        | false => rw [Bool.false_or]
        | true =>
          rw [Bool.true_or]
          rw [l7] at hacc
          have hcov : (maskOf acc.2 e.sets.length &&& e.topology.winning_mask)
              = e.topology.winning_mask := by
            rw [Bool.and_eq_true] at hacc
            exact beq_iff_eq.mp hacc.2
          rw [u3]
          exact (beq_iff_eq.mpr (covers_mono hcov)).symm
    · rw [moveStep_other (hstate1.trans hocc) hp]
      exact loopInv_skip hInv (spSetsOn_single_skip (by
        rw [hocc]
        intro hcontra
        exact hp (Option.some.inj hcontra)))

/-- Folding the neighbor loop over any sub-list of the neighbor list
preserves the loop invariant. -/
theorem moveLoop_inv {e : GameEngine} (hwf : EngineWF e) {cell : CellIndex}
    {player : PlayerId} (hcell : cell < e.topology.total_cells) :
    ∀ (L Lp : List CellIndex) (acc : Bool × List DisjointSet),
      (∀ nb ∈ L, nb ∈ e.topology.get_neighbors cell) →
      LoopInv e cell player Lp acc →
      LoopInv e cell player (Lp ++ L)
        (L.foldl (moveStep (e.state.set cell (some player))
          (e.cell_set_map.set cell (some e.sets.length))
          e.topology.winning_mask e.sets.length player) acc) := by
  intro L
  induction L with
  | nil =>
    intro Lp acc _ hInv
    simpa using hInv
  | cons nb L ih =>
    intro Lp acc hmem hInv
    rw [List.foldl_cons]
    have h1 := moveStep_inv hwf hcell (hmem nb (List.mem_cons_self _ _)) hInv
    have h2 := ih (Lp ++ [nb]) _
      (fun x hx => hmem x (List.mem_cons_of_mem _ hx)) h1
    rw [List.append_assoc] at h2
    simpa using h2

/-- Master specification of `make_move` on a free in-bounds cell of a
well-formed engine: it succeeds, the returned flag is exactly "the mask
accumulated on the new node covers the winning mask", and the resulting
state is described completely. -/
theorem make_move_spec {e : GameEngine} (hwf : EngineWF e) {cell : CellIndex}
    {player : PlayerId} (hcell : cell < e.topology.total_cells)
    (hfree : e.state.getD cell none = none) :
    ∃ sets' : List DisjointSet,
      e.make_move cell player = Except.ok
        (((newRootMask e cell player &&& e.topology.winning_mask)
            == e.topology.winning_mask),
          { topology := e.topology
            state := e.state.set cell (some player)
            sets := sets'
            cell_set_map := e.cell_set_map.set cell (some e.sets.length) }) ∧
      sets'.length = e.sets.length + 1 ∧
      ParentInv sets' ∧
      parentOf sets' e.sets.length = e.sets.length ∧
      maskOf sets' e.sets.length = newRootMask e cell player ∧
      (∀ k, k ≠ e.sets.length → maskOf sets' k = maskOf e.sets k) ∧
      (∀ k, rootP sets' k = if mergedRootB e cell player (rootP e.sets k)
        then e.sets.length else rootP e.sets k) := by
  have hbase := loopInv_base e hwf cell player
  have hloop := moveLoop_inv hwf hcell (e.topology.get_neighbors cell) []
    (false, e.sets ++ [{ parent := e.sets.length
                         regions_touched := e.topology.get_cell_regions cell }])
    (fun nb h => h) hbase
  rw [List.nil_append] at hloop
  set loop := (e.topology.get_neighbors cell).foldl
    (moveStep (e.state.set cell (some player))
      (e.cell_set_map.set cell (some e.sets.length))
      e.topology.winning_mask e.sets.length player)
    (false, e.sets ++ [{ parent := e.sets.length
                         regions_touched := e.topology.get_cell_regions cell }])
    with hloopdef
  have hmaskn : maskOf loop.2 e.sets.length = newRootMask e cell player :=
    hloop.maskn
  unfold GameEngine.make_move
  rw [if_neg (Nat.not_le.mpr hcell), hfree]
  rw [if_neg (by simp : ¬((none : Option PlayerId).isSome = true))]
  simp only
  rw [← hloopdef]
  by_cases hwon : loop.1 = true
  · rw [if_pos hwon]
    have hw1 : loop.1 = ((newRootMask e cell player &&& e.topology.winning_mask)
        == e.topology.winning_mask) := by
      rw [hwon]
      have hv := hloop.wonv
      rw [hwon] at hv
      rw [Bool.eq_iff_iff] at hv
      have := hv.mp rfl
      rw [Bool.and_eq_true] at this
      rw [← hmaskn]
      exact this.2.symm
    refine ⟨loop.2, ?_, hloop.len, hloop.pinv, hloop.pself, hmaskn,
      hloop.masko, hloop.roots⟩
    rw [hw1]
  · rw [if_neg hwon]
    obtain ⟨f1, f2, f3, f4, f5, f6⟩ := find_spec hloop.pinv e.sets.length
    have hfr : (find loop.2 e.sets.length).1 = e.sets.length := by
      rw [f1]
      exact rootP_of_parent_self hloop.pself
    refine ⟨(find loop.2 e.sets.length).2, ?_, ?_, f3, ?_, ?_, ?_, ?_⟩
    · rw [hfr]
      rw [f5 e.sets.length, hmaskn]
    · rw [f2, hloop.len]
    · exact f6 _ hloop.pself
    · rw [f5 e.sets.length, hmaskn]
    · intro k hk
      rw [f5 k]
      exact hloop.masko k hk
    · intro k
      rw [f4 k]
      exact hloop.roots k

/-- `make_move` on an out-of-bounds cell: the out-of-bounds error, no
state returned. -/
theorem make_move_oob {e : GameEngine} {cell : CellIndex} {player : PlayerId}
    (h : cell ≥ e.topology.total_cells) :
    e.make_move cell player =
      Except.error ("Celda fuera de límites: " ++ toString cell) := by
  unfold GameEngine.make_move
  rw [if_pos h]

/-- `make_move` on an occupied cell: the occupied error, no state
returned. -/
theorem make_move_occupied {e : GameEngine} {cell : CellIndex} {player q : PlayerId}
    (hcell : cell < e.topology.total_cells)
    (hocc : e.state.getD cell none = some q) :
    e.make_move cell player =
      Except.error ("Celda ocupada: " ++ toString cell) := by
  unfold GameEngine.make_move
  rw [if_neg (Nat.not_le.mpr hcell), hocc]
  rfl

/-- One engine-level step: apply `make_move`, keeping the old state on
error (the engine mutates nothing before its validation passes). -/
def engineStep (e : GameEngine) (m : CellIndex × PlayerId) : GameEngine :=
  match e.make_move m.1 m.2 with
  | .ok (_, e') => e'
  | .error _ => e

/-- Run a sequence of `make_move` requests. -/
def runEngine (e : GameEngine) (ms : List (CellIndex × PlayerId)) : GameEngine :=
  ms.foldl engineStep e

/-- Engine states reachable from a fresh triangular-board engine by a
sequence of `make_move` calls. -/
def EngineReachable (e : GameEngine) : Prop :=
  ∃ size ms, runEngine (GameEngine.new (TriangularTopology.new size)) ms = e

/-- Neighbor lists of the freshly built triangular topology stay inside
the board. -/
theorem triangular_nbr_lt {size : Nat} :
    ∀ c nb, c < (TriangularTopology.new size).total_cells →
      nb ∈ (TriangularTopology.new size).get_neighbors c →
      nb < (TriangularTopology.new size).total_cells := by
  intro c nb hc hnb
  have htot : (TriangularTopology.new size).total_cells = tri size := by
    unfold TriangularTopology.new TriangularTopology.total_cells
    exact total_cells_eq_tri size
  rw [htot] at hc ⊢
  rw [get_neighbors_new hc] at hnb
  rw [List.mem_map] at hnb
  obtain ⟨d, hd, hval⟩ := hnb
  have hvalid : d.Valid size :=
    neighborCoordsOf_valid (from_index_valid hc) hd
  rw [← hval]
  exact to_index_lt hvalid

/-- No cell of the freshly built triangular topology is its own
neighbor. -/
theorem triangular_nbr_ne {size : Nat} :
    ∀ c nb, c < (TriangularTopology.new size).total_cells →
      nb ∈ (TriangularTopology.new size).get_neighbors c → nb ≠ c := by
  intro c nb hc hnb
  have htot : (TriangularTopology.new size).total_cells = tri size := by
    unfold TriangularTopology.new TriangularTopology.total_cells
    exact total_cells_eq_tri size
  rw [htot] at hc
  rw [get_neighbors_new hc] at hnb
  rw [List.mem_map] at hnb
  obtain ⟨d, hd, hval⟩ := hnb
  intro he
  have hvalid : d.Valid size :=
    neighborCoordsOf_valid (from_index_valid hc) hd
  have hdc : d = Coordinates.from_index c size := by
    have h1 : d.to_index size = (Coordinates.from_index c size).to_index size := by
      rw [hval, he, to_index_from_index hc]
    exact to_index_injective hvalid (from_index_valid hc) h1
  exact neighborCoordsOf_ne hd hdc

/-- A fresh engine over a topology with sane neighbor lists is
well-formed. -/
theorem engineWF_new {t : TriangularTopology}
    (hlt : ∀ c nb, c < t.total_cells → nb ∈ t.get_neighbors c →
      nb < t.total_cells)
    (hne : ∀ c nb, c < t.total_cells → nb ∈ t.get_neighbors c → nb ≠ c) :
    EngineWF (GameEngine.new t) := by
  refine ⟨List.length_replicate _ _, List.length_replicate _ _, ?_, ?_, ?_, hlt, hne⟩
  · intro k hk
    simp [GameEngine.new] at hk
  · intro c hc
    have hc' : c < t.total_cells := hc
    show ((List.replicate t.total_cells (none : Option PlayerId)).getD c none).isSome
        = true ↔
      ((List.replicate t.total_cells (none : Option Nat)).getD c none).isSome = true
    rw [getD_replicate _ _ _ _ hc']
  · intro c k hc hk
    have hc' : c < t.total_cells := hc
    have hk' : (List.replicate t.total_cells (none : Option Nat)).getD c none
        = some k := hk
    rw [getD_replicate _ _ _ _ hc'] at hk'
    cases hk'

/-- Structural well-formedness survives every engine step. -/
theorem engineWF_step {e : GameEngine} (hwf : EngineWF e)
    (m : CellIndex × PlayerId) : EngineWF (engineStep e m) := by
  obtain ⟨c, p⟩ := m
  unfold engineStep
  by_cases hc : c ≥ e.topology.total_cells
  · rw [make_move_oob hc]
    exact hwf
  · have hcell : c < e.topology.total_cells := Nat.not_le.mp hc
    cases hocc : e.state.getD c none with
    | some q =>
      rw [make_move_occupied hcell hocc]
      exact hwf
    | none =>
      obtain ⟨sets', hok, hlen, hpinv, hpself, hmaskn, hmasko, hroots⟩ :=
        make_move_spec hwf hcell hocc
      rw [hok]
      constructor
      · rw [List.length_set]
        exact hwf.state_len
      · rw [List.length_set]
        exact hwf.map_len
      · exact hpinv
      · intro d hd
        by_cases hdc : d = c
        · subst hdc
          rw [getD_set_eq _ _ _ _ (by rw [hwf.state_len]; exact hd),
            getD_set_eq _ _ _ _ (by rw [hwf.map_len]; exact hd)]
          simp
        · rw [getD_set_ne _ _ _ (fun he => hdc he.symm),
            getD_set_ne _ _ _ (fun he => hdc he.symm)]
          exact hwf.sync d hd
      · intro d k hd hk
        rw [hlen]
        by_cases hdc : d = c
        · subst hdc
          rw [getD_set_eq _ _ _ _ (by rw [hwf.map_len]; exact hd)] at hk
          cases hk
          omega
        · rw [getD_set_ne _ _ _ (fun he => hdc he.symm)] at hk
          have := hwf.map_range d k hd hk
          omega
      · exact hwf.nbr_lt
      · exact hwf.nbr_ne

/-- Every reachable engine state is structurally well-formed. -/
theorem engineWF_reachable {e : GameEngine} (h : EngineReachable e) :
    EngineWF e := by
  obtain ⟨size, ms, hrun⟩ := h
  subst hrun
  unfold runEngine
  induction ms using List.reverseRecOn with
  | nil => exact engineWF_new triangular_nbr_lt triangular_nbr_ne
  | append_singleton ms m ih =>
    rw [List.foldl_append, List.foldl_cons, List.foldl_nil]
    exact engineWF_step ih m

/-! ## The union-find root-mask invariant (C8) -/

/-- The cells whose set-map entry leads, via parent pointers, to the
root `r`. -/
def cellsInTree (e : GameEngine) (r : Nat) : List CellIndex :=
  (List.range e.topology.total_cells).filter (fun c =>
    match e.cell_set_map.getD c none with
    | some k => rootP e.sets k == r
    | none => false)

/-- The bitwise OR of the precomputed region masks of all cells in the
tree of root `r`. -/
def treeMask (e : GameEngine) (r : Nat) : RegionMask :=
  orList ((cellsInTree e r).map (fun c => e.topology.get_cell_regions c))

/-- The C8 invariant: every root's `regions_touched` equals the OR of
the region masks of all cells in its tree. -/
def MaskInv (e : GameEngine) : Prop :=
  ∀ r, r < e.sets.length → parentOf e.sets r = r →
    maskOf e.sets r = treeMask e r

theorem testBit_treeMask (e : GameEngine) (r b : Nat) :
    (treeMask e r).testBit b = true ↔
      ∃ c, c < e.topology.total_cells ∧
        (∃ k, e.cell_set_map.getD c none = some k ∧ rootP e.sets k = r) ∧
        (e.topology.get_cell_regions c).testBit b = true := by
  unfold treeMask cellsInTree
  rw [testBit_orList, List.any_eq_true]
  constructor
  · rintro ⟨x, hx, hbit⟩
    rw [List.mem_map] at hx
    obtain ⟨c, hc, rfl⟩ := hx
    rw [List.mem_filter, List.mem_range] at hc
    obtain ⟨hlt, hpred⟩ := hc
    refine ⟨c, hlt, ?_, hbit⟩
    cases hmap : e.cell_set_map.getD c none with
    | none => rw [hmap] at hpred; cases hpred
    | some k =>
      rw [hmap] at hpred
      exact ⟨k, rfl, beq_iff_eq.mp hpred⟩
  · rintro ⟨c, hlt, ⟨k, hmap, hroot⟩, hbit⟩
    refine ⟨e.topology.get_cell_regions c, ?_, hbit⟩
    rw [List.mem_map]
    refine ⟨c, ?_, rfl⟩
    rw [List.mem_filter, List.mem_range]
    refine ⟨hlt, ?_⟩
    rw [hmap]
    exact beq_iff_eq.mpr hroot

theorem testBit_newRootMask (e : GameEngine) (cell : CellIndex) (p : PlayerId)
    (b : Nat) : (newRootMask e cell p).testBit b = true ↔
      (e.topology.get_cell_regions cell).testBit b = true ∨
        ∃ s ∈ samePlayerNbrSets e cell p,
          (maskOf e.sets (rootP e.sets s)).testBit b = true := by
  unfold newRootMask
  rw [Nat.testBit_lor, Bool.or_eq_true, testBit_orList, List.any_eq_true]
  constructor
  · rintro (h | ⟨x, hx, hbit⟩)
    · exact Or.inl h
    · obtain ⟨s, hs, rfl⟩ := List.mem_map.mp hx
      exact Or.inr ⟨s, hs, hbit⟩
  · rintro (h | ⟨s, hs, hbit⟩)
    · exact Or.inl h
    · exact Or.inr ⟨_, List.mem_map.mpr ⟨s, hs, rfl⟩, hbit⟩

theorem mergedRootB_eq_true (e : GameEngine) (cell : CellIndex) (p : PlayerId)
    (r : Nat) : mergedRootB e cell p r = true ↔
      ∃ s ∈ samePlayerNbrSets e cell p, rootP e.sets s = r := by
  simp [mergedRootB, mergedOn, samePlayerNbrSets, List.any_eq_true]

/-- The mask invariant survives every engine step. -/
theorem maskInv_step {e : GameEngine} (hwf : EngineWF e) (hmi : MaskInv e)
    (m : CellIndex × PlayerId) : MaskInv (engineStep e m) := by
  obtain ⟨c, p⟩ := m
  unfold engineStep
  by_cases hc : c ≥ e.topology.total_cells
  · rw [make_move_oob hc]
    exact hmi
  · have hcell : c < e.topology.total_cells := Nat.not_le.mp hc
    cases hocc : e.state.getD c none with
    | some q =>
      rw [make_move_occupied hcell hocc]
      exact hmi
    | none =>
      obtain ⟨sets', hok, hlen, hpinv, hpself, hmaskn, hmasko, hroots⟩ :=
        make_move_spec hwf hcell hocc
      rw [hok]
      have hmap_none : e.cell_set_map.getD c none = none := by
        cases hm : e.cell_set_map.getD c none with
        | none => rfl
        | some k =>
          have h1 := (hwf.sync c hcell).mpr (by rw [hm]; rfl)
          rw [hocc] at h1
          cases h1
      have hroots_n : rootP sets' e.sets.length = e.sets.length := by
        rw [hroots e.sets.length, rootP_of_ge (le_refl _)]
        split <;> rfl
      have hsp_lt : ∀ s ∈ samePlayerNbrSets e c p, s < e.sets.length := by
        intro s hs
        exact spSetsOn_lt hwf
          (fun nb hnb => hwf.nbr_lt c nb hcell hnb) s hs
      intro r hr hparr
      rw [hlen] at hr
      by_cases hrn : r = e.sets.length
      · subst hrn
        rw [hmaskn]
        apply Nat.eq_of_testBit_eq
        intro b
        rw [Bool.eq_iff_iff, testBit_newRootMask, testBit_treeMask]
        constructor
        · rintro (hbit | ⟨s, hs, hbit⟩)
          · refine ⟨c, hcell, ⟨e.sets.length, ?_, hroots_n⟩, hbit⟩
            exact getD_set_eq _ _ _ _ (by rw [hwf.map_len]; exact hcell)
          · have hsl := hsp_lt s hs
            have hrtl := rootP_lt hwf.pinv hsl
            have hrtroot := rootP_root hwf.pinv s
            rw [hmi (rootP e.sets s) hrtl hrtroot, testBit_treeMask] at hbit
            obtain ⟨c', hc', ⟨k, hmapc', hrootk⟩, hbitc'⟩ := hbit
            have hc'ne : c' ≠ c := by
              intro he
              rw [he, hmap_none] at hmapc'
              cases hmapc'
            refine ⟨c', hc', ⟨k, ?_, ?_⟩, hbitc'⟩
            · rw [getD_set_ne _ _ _ (fun he => hc'ne he.symm)]
              exact hmapc'
            · rw [hroots k, hrootk,
                if_pos ((mergedRootB_eq_true e c p (rootP e.sets s)).mpr
                  ⟨s, hs, rfl⟩)]
        · rintro ⟨c', hc', ⟨k, hmapc', hrootk⟩, hbitc'⟩
          by_cases hc'c : c' = c
          · subst hc'c
            rw [getD_set_eq _ _ _ _ (by rw [hwf.map_len]; exact hc')] at hmapc'
            exact Or.inl hbitc'
          · rw [getD_set_ne _ _ _ (fun he => hc'c he.symm)] at hmapc'
            have hkl : k < e.sets.length := hwf.map_range c' k hc' hmapc'
            have hrkl : rootP e.sets k < e.sets.length := rootP_lt hwf.pinv hkl
            rw [hroots k] at hrootk
            by_cases hmg : mergedRootB e c p (rootP e.sets k) = true
            · obtain ⟨s, hs, hrs⟩ := (mergedRootB_eq_true e c p _).mp hmg
              refine Or.inr ⟨s, hs, ?_⟩
              have hsl := hsp_lt s hs
              rw [hmi (rootP e.sets s) (rootP_lt hwf.pinv hsl)
                (rootP_root hwf.pinv s), testBit_treeMask]
              exact ⟨c', hc', ⟨k, hmapc', by rw [hrs]⟩, hbitc'⟩
            · rw [Bool.not_eq_true] at hmg
              rw [hmg, if_neg Bool.false_ne_true] at hrootk
              omega
      · have hrlt : r < e.sets.length := by omega
        have hrootr' : rootP sets' r = r := rootP_of_parent_self hparr
        rw [hroots r] at hrootr'
        have hnm : mergedRootB e c p (rootP e.sets r) = false ∧
            rootP e.sets r = r := by
          by_cases hme : mergedRootB e c p (rootP e.sets r) = true
          · rw [if_pos hme] at hrootr'
            omega
          · rw [Bool.not_eq_true] at hme
            rw [hme, if_neg Bool.false_ne_true] at hrootr'
            exact ⟨hme, hrootr'⟩
        have hmgr : mergedRootB e c p r = false := by
          have h1 := hnm.1
          rw [hnm.2] at h1
          exact h1
        have hpre : parentOf e.sets r = r := by
          have h1 := rootP_root hwf.pinv r
          rw [hnm.2] at h1
          exact h1
        rw [hmasko r hrn, hmi r hrlt hpre]
        have hlists : cellsInTree
            { topology := e.topology
              state := e.state.set c (some p)
              sets := sets'
              cell_set_map := e.cell_set_map.set c (some e.sets.length) } r =
            cellsInTree e r := by
          unfold cellsInTree
          apply List.filter_congr
          intro a ha
          rw [List.mem_range] at ha
          by_cases hac : a = c
          · subst hac
            have hset : (e.cell_set_map.set a (some e.sets.length)).getD a none =
                some e.sets.length :=
              getD_set_eq _ _ _ _ (by rw [hwf.map_len]; exact ha)
            rw [hset, hmap_none]
            show (rootP sets' e.sets.length == r) = false
            rw [hroots_n]
            exact beq_eq_false_iff_ne.mpr (fun he => hrn he.symm)
          · rw [getD_set_ne _ _ _ (fun he => hac he.symm)]
            cases hm : e.cell_set_map.getD a none with
            | none => rfl
            | some k =>
              show (rootP sets' k == r) = (rootP e.sets k == r)
              rw [hroots k]
              by_cases hmg : mergedRootB e c p (rootP e.sets k) = true
              · rw [if_pos hmg]
                have hrk_ne : rootP e.sets k ≠ r := by
                  intro he
                  rw [he, hmgr] at hmg
                  cases hmg
                rw [beq_eq_false_iff_ne.mpr (fun he => hrn he.symm),
                  beq_eq_false_iff_ne.mpr hrk_ne]
              · rw [Bool.not_eq_true] at hmg
                rw [if_neg (show ¬mergedRootB e c p (rootP e.sets k) = true by
                  rw [hmg]; exact Bool.false_ne_true)]
        show treeMask e r = treeMask _ r
        unfold treeMask
        rw [hlists]

/-- Both engine invariants hold in every reachable engine state. -/
theorem engineInv_reachable {e : GameEngine} (h : EngineReachable e) :
    EngineWF e ∧ MaskInv e := by
  obtain ⟨size, ms, hrun⟩ := h
  subst hrun
  unfold runEngine
  induction ms using List.reverseRecOn with
  | nil =>
    refine ⟨engineWF_new triangular_nbr_lt triangular_nbr_ne, ?_⟩
    intro r hr
    simp [GameEngine.new] at hr
  | append_singleton ms m ih =>
    rw [List.foldl_append, List.foldl_cons, List.foldl_nil]
    exact ⟨engineWF_step ih.1 m, maskInv_step ih.1 ih.2 m⟩

/-! ## The game state machine (`core/game.rs`)

The `Movement`, `GameAction`, `GameYError` and `YEN` types live in crate
modules outside the analysed sources; they are modelled from the spec
(§4.5, §6, §7): a movement is a placement or an action, actions are
Resign and Swap, and the error kinds are as listed in §7. -/

/-- Modelled from the spec: the non-placement actions. -/
inductive GameAction where
  | Resign : GameAction
  | Swap : GameAction
deriving DecidableEq

/-- Modelled from the spec: a movement is a `Placement{player, coords}`
or an `Action{player, kind}`. -/
inductive Movement where
  | Placement (player : PlayerId) (coords : Coordinates) : Movement
  | Action (player : PlayerId) (action : GameAction) : Movement
deriving DecidableEq

/-- Modelled from the spec: the recoverable error kinds of the game
layer (I/O and serde errors are out of scope of the core). -/
inductive GameYError where
  | Occupied (coordinates : Coordinates) (player : PlayerId) : GameYError
  | InvalidPlayerTurn (expected found : PlayerId) : GameYError
  | InvalidYENLayout (expected found : Nat) : GameYError
  | InvalidYENLayoutLine (expected found line : Nat) : GameYError
  | InvalidCharInLayout (char : Char) (row col : Nat) : GameYError
deriving DecidableEq

/-- `enum GameStatus`. -/
inductive GameStatus where
  | Ongoing (next_player : PlayerId) : GameStatus
  | Finished (winner : PlayerId) : GameStatus
deriving DecidableEq

/-- `struct GameY`. -/
structure GameY where
  board_size : Nat
  engine : GameEngine
  status : GameStatus
  history : List Movement
  available_cells : List Nat
deriving DecidableEq

/-- `other_player`: the two-player swap (ids 0 and 1). -/
def other_player (player : PlayerId) : PlayerId :=
  if player = 0 then 1 else 0

/-- `GameY::new`. -/
def GameY.new (board_size : Nat) : GameY :=
  { board_size := board_size
    engine := GameEngine.new (TriangularTopology.new board_size)
    history := []
    status := GameStatus.Ongoing 0
    available_cells := List.range ((board_size * (board_size + 1)) / 2) }

/-- `GameY::check_game_over`. -/
def GameY.check_game_over (g : GameY) : Bool :=
  match g.status with
  | GameStatus.Ongoing _ => false
  | GameStatus.Finished _ => true

/-- `GameY::total_cells`. -/
def GameY.total_cells (g : GameY) : Nat :=
  (g.board_size * (g.board_size + 1)) / 2

/-- `GameY::check_player_turn`: only an `Ongoing` game checks the
acting player against `next_player`. -/
def GameY.check_player_turn (g : GameY) (movement : Movement) :
    Except GameYError Unit :=
  match g.status with
  | GameStatus.Ongoing next_player =>
    let player := match movement with
      | Movement.Placement player _ => player
      | Movement.Action player _ => player
    if player ≠ next_player then
      Except.error (GameYError.InvalidPlayerTurn next_player player)
    else Except.ok ()
  | GameStatus.Finished _ => Except.ok ()

/-- `GameY::next_player`. -/
def GameY.next_player (g : GameY) : Option PlayerId :=
  match g.status with
  | GameStatus.Ongoing next_player => some next_player
  | GameStatus.Finished _ => none

/-- Result of a mutating game operation: success with the new state,
a recoverable error with the (unchanged) state, or a Rust panic. -/
inductive MoveRes where
  | ok (g : GameY) : MoveRes
  | err (e : GameYError) (g : GameY) : MoveRes
  | crash : MoveRes
deriving DecidableEq

/-- Result of `GameY::validate_placement` (`&self`, so no state). -/
inductive VRes where
  | ok : VRes
  | err (e : GameYError) : VRes
  | crash : VRes
deriving DecidableEq

/-- `GameY::validate_placement`: the game-over check only logs; the
occupancy check indexes `self.engine.state[idx]` with the raw index,
which panics when the index is out of bounds (`crash`). -/
def GameY.validate_placement (g : GameY) (player : PlayerId)
    (coords : Coordinates) : VRes :=
  let idx := coords.to_index g.board_size
  if idx < g.engine.state.length then
    if (g.engine.state.getD idx none).isSome then
      VRes.err (GameYError.Occupied coords player)
    else VRes.ok
  else VRes.crash

/-- `GameY::update_status_after_placement`: a finished game's status is
left untouched (the move is only logged). -/
def GameY.update_status_after_placement (g : GameY) (player : PlayerId)
    (won : Bool) : GameStatus :=
  if g.check_game_over then g.status
  else if won then GameStatus.Finished player
  else GameStatus.Ongoing (other_player player)

/-- `GameY::handle_placement`: validate, delegate to the engine, update
the free-cell list and the status.  Both arms of the engine-error
mapping in the source produce the `Occupied` error. -/
def GameY.handle_placement (g : GameY) (player : PlayerId)
    (coords : Coordinates) : MoveRes :=
  match g.validate_placement player coords with
  | VRes.crash => MoveRes.crash
  | VRes.err e => MoveRes.err e g
  | VRes.ok =>
    let idx := coords.to_index g.board_size
    match g.engine.make_move idx player with
    | Except.ok (won, engine') =>
      MoveRes.ok { g with
        engine := engine'
        available_cells := g.available_cells.filter (fun x => x ≠ idx)
        status := g.update_status_after_placement player won }
    | Except.error _ =>
      MoveRes.err (GameYError.Occupied coords player) g

/-- `GameY::handle_action`: Resign and Swap overwrite the status
unconditionally. -/
def GameY.handle_action (g : GameY) (player : PlayerId)
    (action : GameAction) : GameStatus :=
  match action with
  | GameAction.Resign => GameStatus.Finished (other_player player)
  | GameAction.Swap => GameStatus.Ongoing (other_player player)

/-- `GameY::add_move`: apply the movement and append it to the history
(history is only appended on success, because `?` propagates errors
before the push). -/
def GameY.add_move (g : GameY) (movement : Movement) : MoveRes :=
  match movement with
  | Movement.Placement player coords =>
    match g.handle_placement player coords with
    | MoveRes.ok g' => MoveRes.ok { g' with history := g'.history ++ [movement] }
    | MoveRes.err e g' => MoveRes.err e g'
    | MoveRes.crash => MoveRes.crash
  | Movement.Action player action =>
    MoveRes.ok { g with
      status := g.handle_action player action
      history := g.history ++ [movement] }

/-! ## The YEN exchange format -/

/-- Modelled from the spec: the exchange record — board size, turn
indicator, player tags and the layout string (modelled as `List Char`). -/
structure YEN where
  size : Nat
  turn : Nat
  players : List Char
  layout : List Char
deriving DecidableEq

/-- Modelled from the spec: plain constructor `YEN::new`. -/
def YEN.new (size turn : Nat) (players : List Char) (layout : List Char) : YEN :=
  { size := size, turn := turn, players := players, layout := layout }

/-- The character encoding one cell (`'B'`, `'R'` or `'.'`) in
`impl From<&GameY> for YEN`. -/
def cellChar (g : GameY) (idx : Nat) : Char :=
  match g.engine.state.getD idx none with
  | some p => if p = 0 then 'B' else if p = 1 then 'R' else '.'
  | none => '.'

/-- `impl From<&GameY> for YEN`: encode a game into the exchange
record.  The layout loop appends one character per cell and a `/`
after the last cell of every row but the bottom one. -/
def YEN.fromGame (game : GameY) : YEN :=
  let size := game.board_size
  let turn := match game.status with
    | GameStatus.Finished winner => other_player winner
    | GameStatus.Ongoing next_player => next_player
  let total_cells := (game.board_size * (game.board_size + 1)) / 2
  let players := ['B', 'R']
  let layout := (List.range total_cells).foldl (fun acc idx =>
    let acc1 := acc ++ [cellChar game idx]
    let coords := Coordinates.from_index idx game.board_size
    if coords.z = 0 ∧ coords.x > 0 then acc1 ++ ['/'] else acc1) []
  YEN.new size turn players layout

/-- Result of decoding: `TryFrom<YEN> for GameY` (errors carry no
state; a panic inside a replayed `add_move` escapes `try_from`). -/
inductive DRes where
  | ok (g : GameY) : DRes
  | err (e : GameYError) : DRes
  | crash : DRes
deriving DecidableEq

/-- Inner loop of `TryFrom<YEN> for GameY`: replay the cells of one row
(at row index `row`, starting at column `col`) as placements. -/
def decodeRowCells (size row : Nat) : GameY → Nat → List Char → DRes
  | g, _, [] => DRes.ok g
  | g, col, cell :: rest =>
    let x := size - 1 - row
    let y := col
    let z := size - 1 - x - y
    let coords := Coordinates.new x y z
    match cell with
    | 'B' =>
      match g.add_move (Movement.Placement 0 coords) with
      | MoveRes.ok g' => decodeRowCells size row g' (col + 1) rest
      | MoveRes.err e _ => DRes.err e
      | MoveRes.crash => DRes.crash
    | 'R' =>
      match g.add_move (Movement.Placement 1 coords) with
      | MoveRes.ok g' => decodeRowCells size row g' (col + 1) rest
      | MoveRes.err e _ => DRes.err e
      | MoveRes.crash => DRes.crash
    | '.' => decodeRowCells size row g (col + 1) rest
    | c => DRes.err (GameYError.InvalidCharInLayout c row col)

/-- Outer loop of `TryFrom<YEN> for GameY`: check each row's length and
replay its cells. -/
def decodeRows (size : Nat) : GameY → Nat → List (List Char) → DRes
  | g, _, [] => DRes.ok g
  | g, row, cells :: rest =>
    if cells.length ≠ row + 1 then
      DRes.err (GameYError.InvalidYENLayoutLine (row + 1) cells.length row)
    else
      match decodeRowCells size row g 0 cells with
      | DRes.ok g' => decodeRows size g' (row + 1) rest
      | DRes.err e => DRes.err e
      | DRes.crash => DRes.crash

/-- `impl TryFrom<YEN> for GameY`: split the layout into rows, check the
row count, and replay the layout as a sequence of placements. -/
def GameY.try_from (game : YEN) : DRes :=
  let ygame := GameY.new game.size
  let rows := game.layout.splitOn '/'
  if rows.length ≠ game.size then
    DRes.err (GameYError.InvalidYENLayout game.size rows.length)
  else decodeRows game.size ygame 0 rows

/-! ## Game-level reachability -/

/-- One game step: recoverable errors leave the state unchanged, a
panic aborts the run. -/
def stepGame (g : GameY) (m : Movement) : Option GameY :=
  match g.add_move m with
  | MoveRes.ok g' => some g'
  | MoveRes.err _ g' => some g'
  | MoveRes.crash => none

/-- Run a list of movements through `add_move`. -/
def runGame : GameY → List Movement → Option GameY
  | g, [] => some g
  | g, m :: ms =>
    match stepGame g m with
    | some g' => runGame g' ms
    | none => none

/-- Game states reachable from a fresh game by any `add_move` calls. -/
def GameReachable (g : GameY) : Prop :=
  ∃ size ms, runGame (GameY.new size) ms = some g

/-- One placement that is legal in the game-rule sense: the game is
ongoing, the acting player is the player to move, and `add_move`
accepts the placement. -/
def legalStep (g : GameY) (m : PlayerId × Coordinates) : Option GameY :=
  match g.status with
  | GameStatus.Ongoing np =>
    if m.1 = np then
      match g.add_move (Movement.Placement m.1 m.2) with
      | MoveRes.ok g' => some g'
      | MoveRes.err _ _ => none
      | MoveRes.crash => none
    else none
  | GameStatus.Finished _ => none

/-- Run a list of legal placements. -/
def runLegal : GameY → List (PlayerId × Coordinates) → Option GameY
  | g, [] => some g
  | g, m :: ms =>
    match legalStep g m with
    | some g' => runLegal g' ms
    | none => none

/-- Game states reachable from a fresh game by a sequence of legal
placements. -/
def LegalReachable (g : GameY) : Prop :=
  ∃ size ms, runLegal (GameY.new size) ms = some g

/-! ## Game-level well-formedness -/

theorem total_cells_new (size : Nat) :
    (TriangularTopology.new size).total_cells = tri size :=
  total_cells_eq_tri size

/-- Any successful `make_move` places the piece, bumps the arena and
maps the cell — read off the definition, no well-formedness needed. -/
theorem make_move_ok_state {e : GameEngine} {cell : CellIndex} {player : PlayerId}
    {w : Bool} {e' : GameEngine}
    (h : e.make_move cell player = Except.ok (w, e')) :
    e'.topology = e.topology ∧ e'.state = e.state.set cell (some player) ∧
    e'.cell_set_map = e.cell_set_map.set cell (some e.sets.length) ∧
    cell < e.topology.total_cells ∧ e.state.getD cell none = none := by
  unfold GameEngine.make_move at h
  by_cases h1 : cell ≥ e.topology.total_cells
  · rw [if_pos h1] at h
    cases h
  · rw [if_neg h1] at h
    cases hocc : (e.state.getD cell none) with
    | some q =>
      rw [hocc] at h
      simp at h
    | none =>
      rw [hocc] at h
      rw [if_neg (show ¬((none : Option PlayerId).isSome = true) by simp)] at h
      have h2 := Except.ok.inj h
      have h3 := congrArg Prod.snd h2
      simp only at h3
      rw [← h3]
      exact ⟨rfl, rfl, rfl, Nat.not_le.mp h1, rfl⟩

/-- Game-level structural well-formedness: the engine is well-formed
and runs on the triangular topology of the game's board size. -/
def GameWF (g : GameY) : Prop :=
  g.engine.topology = TriangularTopology.new g.board_size ∧ EngineWF g.engine

theorem gameWF_new (size : Nat) : GameWF (GameY.new size) :=
  ⟨rfl, engineWF_new triangular_nbr_lt triangular_nbr_ne⟩

/-- `make_move`-success preserves engine well-formedness. -/
theorem engineWF_make_move_ok {e : GameEngine} {cell : CellIndex}
    {player : PlayerId} {w : Bool} {e' : GameEngine} (hwf : EngineWF e)
    (h : e.make_move cell player = Except.ok (w, e')) : EngineWF e' := by
  have hstep := engineWF_step hwf (cell, player)
  unfold engineStep at hstep
  rw [h] at hstep
  exact hstep

theorem add_move_placement (g : GameY) (player : PlayerId) (coords : Coordinates) :
    g.add_move (Movement.Placement player coords) =
      match g.handle_placement player coords with
      | MoveRes.ok g' => MoveRes.ok
          { g' with history := g'.history ++ [Movement.Placement player coords] }
      | MoveRes.err e g' => MoveRes.err e g'
      | MoveRes.crash => MoveRes.crash := rfl

theorem add_move_action (g : GameY) (player : PlayerId) (action : GameAction) :
    g.add_move (Movement.Action player action) =
      MoveRes.ok { g with
        status := g.handle_action player action
        history := g.history ++ [Movement.Action player action] } := rfl

theorem handle_placement_crash (g : GameY) (player : PlayerId)
    (coords : Coordinates) (hv : g.validate_placement player coords = VRes.crash) :
    g.handle_placement player coords = MoveRes.crash := by
  unfold GameY.handle_placement
  rw [hv]

theorem handle_placement_err (g : GameY) (player : PlayerId)
    (coords : Coordinates) (e : GameYError)
    (hv : g.validate_placement player coords = VRes.err e) :
    g.handle_placement player coords = MoveRes.err e g := by
  unfold GameY.handle_placement
  rw [hv]

theorem handle_placement_ok_engine (g : GameY) (player : PlayerId)
    (coords : Coordinates) (hv : g.validate_placement player coords = VRes.ok) :
    g.handle_placement player coords =
      match g.engine.make_move (coords.to_index g.board_size) player with
      | Except.ok (won, engine') => MoveRes.ok { g with
          engine := engine'
          available_cells := g.available_cells.filter
            (fun x => x ≠ coords.to_index g.board_size)
          status := g.update_status_after_placement player won }
      | Except.error _ => MoveRes.err (GameYError.Occupied coords player) g := by
  unfold GameY.handle_placement
  rw [hv]

theorem gameWF_step {g : GameY} {m : Movement} {g' : GameY} (hwf : GameWF g)
    (h : stepGame g m = some g') : GameWF g' := by
  unfold stepGame at h
  cases m with
  | Action player action =>
    rw [add_move_action] at h
    have h1 := Option.some.inj h
    rw [← h1]
    exact hwf
  | Placement player coords =>
    rw [add_move_placement] at h
    cases hv : g.validate_placement player coords with
    | crash =>
      rw [handle_placement_crash _ _ _ hv] at h
      cases h
    | err e2 =>
      rw [handle_placement_err _ _ _ _ hv] at h
      have h1 : g = g' := Option.some.inj h
      rw [← h1]
      exact hwf
    | ok =>
      rw [handle_placement_ok_engine _ _ _ hv] at h
      cases hmm : g.engine.make_move (coords.to_index g.board_size) player with
      | error s =>
        rw [hmm] at h
        have h1 : g = g' := Option.some.inj h
        rw [← h1]
        exact hwf
      | ok val =>
        obtain ⟨won, engine'⟩ := val
        rw [hmm] at h
        have h1 := Option.some.inj h
        rw [← h1]
        refine ⟨?_, engineWF_make_move_ok hwf.2 hmm⟩
        have htop := (make_move_ok_state hmm).1
        show engine'.topology = TriangularTopology.new g.board_size
        rw [htop]
        exact hwf.1

theorem gameWF_reachable {g : GameY} (h : GameReachable g) : GameWF g := by
  obtain ⟨size, ms, hrun⟩ := h
  have key : ∀ (ms : List Movement) (g0 g1 : GameY), GameWF g0 →
      runGame g0 ms = some g1 → GameWF g1 := by
    intro ms
    induction ms with
    | nil =>
      intro g0 g1 h0 hr
      unfold runGame at hr
      rw [← Option.some.inj hr]
      exact h0
    | cons m rest ih =>
      intro g0 g1 h0 hr
      unfold runGame at hr
      cases hs : stepGame g0 m with
      | none => rw [hs] at hr; cases hr
      | some g2 =>
        rw [hs] at hr
        exact ih g2 g1 (gameWF_step h0 hs) hr
  exact key ms (GameY.new size) g (gameWF_new size) hrun

/-- Number of zero components in a coordinate triple: 2 for a corner,
1 for an edge non-corner cell, 0 for an interior cell. -/
def zeroCoordCount (c : Coordinates) : Nat :=
  (if c.x = 0 then 1 else 0) + (if c.y = 0 then 1 else 0) +
    (if c.z = 0 then 1 else 0)

/-- Membership in a precomputed neighbor list, at coordinate level. -/
theorem mem_get_neighbors_iff {size i j : Nat} (hi : i < tri size)
    (hj : j < tri size) :
    j ∈ (TriangularTopology.new size).get_neighbors i ↔
      Coordinates.from_index j size ∈
        neighborCoordsOf (Coordinates.from_index i size) := by
  rw [get_neighbors_new hi, List.mem_map]
  constructor
  · rintro ⟨d, hd, hval⟩
    have hvalid : d.Valid size :=
      neighborCoordsOf_valid (from_index_valid hi) hd
    have hdj : Coordinates.from_index j size = d := by
      rw [← hval, from_index_to_index hvalid]
    rw [hdj]
    exact hd
  · intro hmem
    exact ⟨Coordinates.from_index j size, hmem, to_index_from_index hj⟩

/-! ## The claims -/

/-- Claim C1 (as stated) is false: a `Finished` status is not terminal
for every subsequent movement.  Concretely, on a size-1 board the first
placement finishes the game with winner 0, and a subsequent `Swap`
action (accepted by `add_move`) puts the status back to `Ongoing`. -/
theorem claim_C1_counterexample :
    (runGame (GameY.new 1)
      [Movement.Placement 0 (Coordinates.new 0 0 0)]).map GameY.status =
      some (GameStatus.Finished 0) ∧
    (runGame (GameY.new 1)
      [Movement.Placement 0 (Coordinates.new 0 0 0),
       Movement.Action 1 GameAction.Swap]).map GameY.status =
      some (GameStatus.Ongoing 0) := by decide

/-- Claim C1 (amended): once the status is `Finished{winner}`, every
subsequent *placement* passed to `add_move` (whether it succeeds or is
rejected) leaves the status `Finished` with the same winner; `Resign`
and `Swap` actions, by contrast, overwrite the status. -/
theorem claim_C1 (g g' : GameY) (w p : PlayerId) (c : Coordinates)
    (hst : g.status = GameStatus.Finished w)
    (h : g.add_move (Movement.Placement p c) = MoveRes.ok g' ∨
         ∃ e, g.add_move (Movement.Placement p c) = MoveRes.err e g') :
    g'.status = GameStatus.Finished w := by
  have hover : g.check_game_over = true := by
    unfold GameY.check_game_over
    rw [hst]
  have hupd : ∀ won, g.update_status_after_placement p won = g.status := by
    intro won
    unfold GameY.update_status_after_placement
    rw [if_pos hover]
  rcases h with h | ⟨e, h⟩ <;>
    rw [add_move_placement] at h <;>
    cases hv : g.validate_placement p c
  · rw [handle_placement_ok_engine _ _ _ hv] at h
    cases hmm : g.engine.make_move (c.to_index g.board_size) p with
    | error s =>
      rw [hmm] at h
      cases h
    | ok val =>
      obtain ⟨won, engine'⟩ := val
      rw [hmm] at h
      have h1 := MoveRes.ok.inj h
      rw [← h1]
      show g.update_status_after_placement p won = GameStatus.Finished w
      rw [hupd won, hst]
  · rw [handle_placement_err _ _ _ _ hv] at h
    cases h
  · rw [handle_placement_crash _ _ _ hv] at h
    cases h
  · rw [handle_placement_ok_engine _ _ _ hv] at h
    cases hmm : g.engine.make_move (c.to_index g.board_size) p with
    | error s =>
      rw [hmm] at h
      have h1 := (MoveRes.err.inj h).2
      rw [← h1, hst]
    | ok val =>
      obtain ⟨won, engine'⟩ := val
      rw [hmm] at h
      cases h
  · rw [handle_placement_err _ _ _ _ hv] at h
    have h1 := (MoveRes.err.inj h).2
    rw [← h1, hst]
  · rw [handle_placement_crash _ _ _ hv] at h
    cases h

theorem claim_C1_witness :
    ((runGame (GameY.new 1)
      [Movement.Placement 0 (Coordinates.new 0 0 0)]).getD
        (GameY.new 1)).status = GameStatus.Finished 0 :=
  claim_C1
    ((runGame (GameY.new 1)
      [Movement.Placement 0 (Coordinates.new 0 0 0)]).getD (GameY.new 1))
    ((runGame (GameY.new 1)
      [Movement.Placement 0 (Coordinates.new 0 0 0)]).getD (GameY.new 1))
    0 1 (Coordinates.new 0 0 0) (by decide)
    (Or.inr ⟨GameYError.Occupied (Coordinates.new 0 0 0) 1, by decide⟩)

/-- Claim C3: a placement on an occupied cell is rejected by `add_move`
with the `Occupied` error and the returned state is exactly the input
state (all fields), and the engine's `make_move` likewise rejects the
cell with its occupied error and returns no state. -/
theorem claim_C3 (g : GameY) (p q : PlayerId) (c : Coordinates)
    (hidx : c.to_index g.board_size < g.engine.state.length)
    (hcell : c.to_index g.board_size < g.engine.topology.total_cells)
    (hocc : g.engine.state.getD (c.to_index g.board_size) none = some q) :
    g.add_move (Movement.Placement p c) =
      MoveRes.err (GameYError.Occupied c p) g ∧
    g.engine.make_move (c.to_index g.board_size) p =
      Except.error ("Celda ocupada: " ++ toString (c.to_index g.board_size)) := by
  have hv : g.validate_placement p c =
      VRes.err (GameYError.Occupied c p) := by
    unfold GameY.validate_placement
    rw [if_pos hidx, hocc]
    rfl
  exact ⟨by rw [add_move_placement, handle_placement_err _ _ _ _ hv],
    make_move_occupied hcell hocc⟩

theorem claim_C3_witness :
    ((runGame (GameY.new 1)
        [Movement.Placement 0 (Coordinates.new 0 0 0)]).getD
      (GameY.new 1)).add_move
        (Movement.Placement 1 (Coordinates.new 0 0 0)) =
      MoveRes.err
        (GameYError.Occupied (Coordinates.new 0 0 0) 1)
        ((runGame (GameY.new 1)
          [Movement.Placement 0 (Coordinates.new 0 0 0)]).getD (GameY.new 1)) ∧
    ((runGame (GameY.new 1)
        [Movement.Placement 0 (Coordinates.new 0 0 0)]).getD
      (GameY.new 1)).engine.make_move 0 1 =
      Except.error ("Celda ocupada: " ++ toString 0) :=
  claim_C3
    ((runGame (GameY.new 1)
      [Movement.Placement 0 (Coordinates.new 0 0 0)]).getD (GameY.new 1))
    1 0 (Coordinates.new 0 0 0) (by decide) (by decide) (by decide)

/-- Claim C5: in the precomputed triangular topology of any board size
at least 1, a cell with exactly two zero coordinates (a corner) has
exactly 2 neighbors, a cell with exactly one zero coordinate (an edge
non-corner cell) exactly 4, and a cell with no zero coordinate
(interior) exactly 6. -/
theorem claim_C5 (size idx : Nat) (hsize : 1 ≤ size)
    (hidx : idx < (TriangularTopology.new size).total_cells) :
    (zeroCoordCount (Coordinates.from_index idx size) = 2 →
      ((TriangularTopology.new size).get_neighbors idx).length = 2) ∧
    (zeroCoordCount (Coordinates.from_index idx size) = 1 →
      ((TriangularTopology.new size).get_neighbors idx).length = 4) ∧
    (zeroCoordCount (Coordinates.from_index idx size) = 0 →
      ((TriangularTopology.new size).get_neighbors idx).length = 6) := by
  rw [total_cells_new] at hidx
  rw [get_neighbors_new hidx, List.length_map, neighborCoordsOf_length]
  unfold zeroCoordCount
  split_ifs <;> first | omega | simp

theorem claim_C5_witness :
    (zeroCoordCount (Coordinates.from_index 4 5) = 2 →
      ((TriangularTopology.new 5).get_neighbors 4).length = 2) ∧
    (zeroCoordCount (Coordinates.from_index 4 5) = 1 →
      ((TriangularTopology.new 5).get_neighbors 4).length = 4) ∧
    (zeroCoordCount (Coordinates.from_index 4 5) = 0 →
      ((TriangularTopology.new 5).get_neighbors 4).length = 6) :=
  claim_C5 5 4 (by decide) (by decide)

/-- Claim C7: neighbor symmetry — for every board size and every pair
of cells, each is in the other's precomputed neighbor list or neither
is. -/
theorem claim_C7 (size i j : Nat)
    (hi : i < (TriangularTopology.new size).total_cells)
    (hj : j < (TriangularTopology.new size).total_cells) :
    (j ∈ (TriangularTopology.new size).get_neighbors i ↔
      i ∈ (TriangularTopology.new size).get_neighbors j) := by
  rw [total_cells_new] at hi hj
  rw [mem_get_neighbors_iff hi hj, mem_get_neighbors_iff hj hi]
  exact neighborCoordsOf_symm

theorem claim_C7_witness :
    (1 ∈ (TriangularTopology.new 5).get_neighbors 0 ↔
      0 ∈ (TriangularTopology.new 5).get_neighbors 1) :=
  claim_C7 5 0 1 (by decide) (by decide)

/-- Claim C9: through `GameY`, an out-of-bounds placement does not
produce an out-of-bounds error — `validate_placement` indexes the
engine's state vector with the raw index first, so the call panics
(`crash`) and the engine's guarded error branch is never reached. -/
theorem claim_C9 (g : GameY) (p : PlayerId) (c : Coordinates)
    (hr : GameReachable g)
    (hoob : g.total_cells ≤ c.to_index g.board_size) :
    g.add_move (Movement.Placement p c) = MoveRes.crash := by
  obtain ⟨htopo, hwf⟩ := gameWF_reachable hr
  have hlen : g.engine.state.length = g.total_cells := by
    rw [hwf.state_len, htopo]
    rfl
  have hv : g.validate_placement p c = VRes.crash := by
    unfold GameY.validate_placement
    rw [if_neg (Nat.not_lt.mpr (by rw [hlen]; exact hoob))]
  rw [add_move_placement, handle_placement_crash _ _ _ hv]

theorem claim_C9_witness :
    (GameY.new 1).add_move (Movement.Placement 0 (Coordinates.new 0 5 0)) =
      MoveRes.crash :=
  claim_C9 (GameY.new 1) 0 (Coordinates.new 0 5 0) ⟨1, [], rfl⟩ (by decide)

/-- Claim C10: when the game status is `Finished`, `check_player_turn`
returns `Ok` for every movement by every player — the wrong-turn error
exists only while the status is `Ongoing`. -/
theorem claim_C10 (g : GameY) (w : PlayerId) (mv : Movement)
    (h : g.status = GameStatus.Finished w) :
    g.check_player_turn mv = Except.ok () := by
  unfold GameY.check_player_turn
  rw [h]

theorem claim_C10_witness :
    ((runGame (GameY.new 1)
      [Movement.Placement 0 (Coordinates.new 0 0 0)]).getD
        (GameY.new 1)).check_player_turn
      (Movement.Action 1 GameAction.Swap) = Except.ok () :=
  claim_C10 _ 0 (Movement.Action 1 GameAction.Swap) (by decide)

/-- Claim C8: in every reachable engine state, the `regions_touched`
mask of every union-find root equals the bitwise OR of the precomputed
region masks of all cells whose set-map entry leads (via parent
pointers) to that root. -/
theorem claim_C8 (e : GameEngine) (hre : EngineReachable e) (r : Nat)
    (hr : r < e.sets.length) (hroot : parentOf e.sets r = r) :
    maskOf e.sets r = treeMask e r :=
  (engineInv_reachable hre).2 r hr hroot

theorem claim_C8_witness :
    maskOf (runEngine (GameEngine.new (TriangularTopology.new 2)) [(0, 0)]).sets 0 =
      treeMask (runEngine (GameEngine.new (TriangularTopology.new 2)) [(0, 0)]) 0 :=
  claim_C8 (runEngine (GameEngine.new (TriangularTopology.new 2)) [(0, 0)])
    ⟨2, [(0, 0)], rfl⟩ 0 (by decide) (by decide)

/-- Claim C2: on a reachable engine, `make_move` on an in-bounds free
cell succeeds, and it returns `Ok(true)` exactly when, after the
placement and all unions, the root of the placed piece's set carries a
regions-touched mask containing all three side bits; in particular,
when there is no same-player neighbor the move wins exactly when the
cell's own precomputed region mask already covers the winning mask. -/
theorem claim_C2 (e : GameEngine) (cell : CellIndex) (p : PlayerId)
    (hre : EngineReachable e) (hcell : cell < e.topology.total_cells)
    (hfree : e.state.getD cell none = none) :
    ∃ w e', e.make_move cell p = Except.ok (w, e') ∧
      (w = true ↔
        (maskOf e'.sets (rootP e'.sets e.sets.length) &&&
          e.topology.winning_mask) = e.topology.winning_mask) ∧
      (samePlayerNbrSets e cell p = [] →
        (w = true ↔
          (e.topology.get_cell_regions cell &&& e.topology.winning_mask) =
            e.topology.winning_mask)) := by
  have hwf := (engineInv_reachable hre).1
  obtain ⟨sets', hok, hlen, hpinv, hpself, hmaskn, hmasko, hroots⟩ :=
    make_move_spec hwf hcell hfree
  have hrootn : rootP sets' e.sets.length = e.sets.length := by
    rw [hroots, rootP_of_ge (le_refl _)]
    split <;> rfl
  refine ⟨_, _, hok, ?_, ?_⟩
  · show ((newRootMask e cell p &&& e.topology.winning_mask)
        == e.topology.winning_mask) = true ↔
      (maskOf sets' (rootP sets' e.sets.length) &&& e.topology.winning_mask)
        = e.topology.winning_mask
    rw [hrootn, hmaskn]
    exact beq_iff_eq
  · intro hso
    have hnr : newRootMask e cell p = e.topology.get_cell_regions cell := by
      unfold newRootMask
      rw [hso]
      simp [orList_nil]
    show ((newRootMask e cell p &&& e.topology.winning_mask)
        == e.topology.winning_mask) = true ↔
      (e.topology.get_cell_regions cell &&& e.topology.winning_mask) =
        e.topology.winning_mask
    rw [hnr]
    exact beq_iff_eq

theorem claim_C2_witness :
    ∃ w e', (GameEngine.new (TriangularTopology.new 1)).make_move 0 0 =
        Except.ok (w, e') ∧
      (w = true ↔
        (maskOf e'.sets (rootP e'.sets
            (GameEngine.new (TriangularTopology.new 1)).sets.length) &&&
          (GameEngine.new (TriangularTopology.new 1)).topology.winning_mask) =
          (GameEngine.new (TriangularTopology.new 1)).topology.winning_mask) ∧
      (samePlayerNbrSets (GameEngine.new (TriangularTopology.new 1)) 0 0 = [] →
        (w = true ↔
          ((GameEngine.new (TriangularTopology.new 1)).topology.get_cell_regions 0
              &&& (GameEngine.new (TriangularTopology.new 1)).topology.winning_mask) =
            (GameEngine.new (TriangularTopology.new 1)).topology.winning_mask)) :=
  claim_C2 (GameEngine.new (TriangularTopology.new 1)) 0 0
    ⟨1, [], rfl⟩ (by decide) (by decide)

theorem orList_perm {l1 l2 : List RegionMask} (h : l1.Perm l2) :
    orList l1 = orList l2 := by
  apply Nat.eq_of_testBit_eq
  intro b
  rw [testBit_orList, testBit_orList, Bool.eq_iff_iff,
    List.any_eq_true, List.any_eq_true]
  constructor <;> rintro ⟨x, hx, hp⟩
  · exact ⟨x, h.mem_iff.mp hx, hp⟩
  · exact ⟨x, h.mem_iff.mpr hx, hp⟩

/-- Claim C6: the result of `make_move` does not depend on the order of
the topology's neighbor list for the placed cell — permuting that list
yields the same `Ok(won)` flag. -/
theorem claim_C6 (e : GameEngine) (cell : CellIndex) (p : PlayerId)
    (perm : List CellIndex) (hre : EngineReachable e)
    (hcell : cell < e.topology.total_cells)
    (hfree : e.state.getD cell none = none)
    (hperm : (e.topology.get_neighbors cell).Perm perm) :
    ∃ w e1 e2,
      e.make_move cell p = Except.ok (w, e1) ∧
      ({ e with topology := { e.topology with
          adjacency := e.topology.adjacency.set cell perm } }).make_move cell p =
        Except.ok (w, e2) := by
  have hwf := (engineInv_reachable hre).1
  set e2top : TriangularTopology :=
    { e.topology with adjacency := e.topology.adjacency.set cell perm }
    with he2top
  have hnb2 : ∀ c', ({ e with topology := e2top } : GameEngine).topology.get_neighbors c' =
      if c' = cell then
        (if cell < e.topology.adjacency.length then perm
         else e.topology.get_neighbors cell)
      else e.topology.get_neighbors c' := by
    intro c'
    by_cases hc' : c' = cell
    · subst hc'
      rw [if_pos rfl]
      by_cases hlen : c' < e.topology.adjacency.length
      · rw [if_pos hlen]
        show (e.topology.adjacency.set c' perm).getD c' [] = perm
        rw [getD_set_eq _ _ _ _ hlen]
      · rw [if_neg hlen]
        show (e.topology.adjacency.set c' perm).getD c' [] =
          e.topology.adjacency.getD c' []
        rw [List.set_eq_of_length_le (Nat.not_lt.mp hlen)]
    · rw [if_neg hc']
      show (e.topology.adjacency.set cell perm).getD c' [] =
        e.topology.adjacency.getD c' []
      rw [getD_set_ne _ _ _ (Ne.symm hc')]
  have hnbperm : (({ e with topology := e2top } : GameEngine).topology.get_neighbors
      cell).Perm (e.topology.get_neighbors cell) := by
    rw [hnb2 cell, if_pos rfl]
    by_cases hlen : cell < e.topology.adjacency.length
    · rw [if_pos hlen]
      exact hperm.symm
    · rw [if_neg hlen]
  have hwf2 : EngineWF { e with topology := e2top } := by
    refine ⟨hwf.state_len, hwf.map_len, hwf.pinv, hwf.sync, hwf.map_range, ?_, ?_⟩
    · intro c' nb hc' hnb
      rw [hnb2 c'] at hnb
      by_cases hcc : c' = cell
      · subst hcc
        rw [if_pos rfl] at hnb
        by_cases hlen : c' < e.topology.adjacency.length
        · rw [if_pos hlen] at hnb
          exact hwf.nbr_lt c' nb hc' (hperm.mem_iff.mpr hnb)
        · rw [if_neg hlen] at hnb
          exact hwf.nbr_lt c' nb hc' hnb
      · rw [if_neg hcc] at hnb
        exact hwf.nbr_lt c' nb hc' hnb
    · intro c' nb hc' hnb
      rw [hnb2 c'] at hnb
      by_cases hcc : c' = cell
      · subst hcc
        rw [if_pos rfl] at hnb
        by_cases hlen : c' < e.topology.adjacency.length
        · rw [if_pos hlen] at hnb
          exact hwf.nbr_ne c' nb hc' (hperm.mem_iff.mpr hnb)
        · rw [if_neg hlen] at hnb
          exact hwf.nbr_ne c' nb hc' hnb
      · rw [if_neg hcc] at hnb
        exact hwf.nbr_ne c' nb hc' hnb
  obtain ⟨s1, hok1, _⟩ := @make_move_spec e hwf cell p hcell hfree
  obtain ⟨s2, hok2, _⟩ := @make_move_spec { e with topology := e2top } hwf2 cell p
    (show cell < ({ e with topology := e2top } : GameEngine).topology.total_cells
      from hcell)
    (show ({ e with topology := e2top } : GameEngine).state.getD cell none = none
      from hfree)
  have hnrm : newRootMask { e with topology := e2top } cell p =
      newRootMask e cell p := by
    unfold newRootMask
    have hreg : ({ e with topology := e2top } : GameEngine).topology.get_cell_regions
        cell = e.topology.get_cell_regions cell := rfl
    rw [hreg]
    have hsp : (samePlayerNbrSets { e with topology := e2top } cell p).Perm
        (samePlayerNbrSets e cell p) := by
      unfold samePlayerNbrSets spSetsOn
      exact (hnbperm.filter _).map _
    exact congrArg _ (orList_perm (hsp.map _))
  rw [hnrm] at hok2
  exact ⟨_, _, _, hok1, hok2⟩

/-! ## Encode: the layout string of `From<&GameY> for YEN`, row by row -/

/-- The characters appended for one cell by the layout loop of
`From<&GameY> for YEN`: the cell character, plus a `/` separator after
the last cell of every row but the bottom one. -/
def emitCell (g : GameY) (idx : Nat) : List Char :=
  if (Coordinates.from_index idx g.board_size).z = 0 ∧
      (Coordinates.from_index idx g.board_size).x > 0
  then [cellChar g idx, '/'] else [cellChar g idx]

theorem foldl_append_emit {α : Type} (f : List Char → α → List Char)
    (e : α → List Char) (hf : ∀ a x, f a x = a ++ e x) :
    ∀ (l : List α) (a : List Char), l.foldl f a = a ++ (l.map e).flatten := by
  intro l
  induction l with
  | nil => intro a; simp
  | cons x t ih =>
    intro a
    rw [List.foldl_cons, hf, ih, List.map_cons, List.flatten_cons, List.append_assoc]

theorem fromGame_layout (g : GameY) :
    (YEN.fromGame g).layout =
      ((List.range (tri g.board_size)).map (emitCell g)).flatten := by
  have hf : ∀ (a : List Char) (x : Nat), (fun acc idx =>
      let acc1 := acc ++ [cellChar g idx]
      let coords := Coordinates.from_index idx g.board_size
      if coords.z = 0 ∧ coords.x > 0 then acc1 ++ ['/'] else acc1) a x =
        a ++ emitCell g x := by
    intro a x
    show (if (Coordinates.from_index x g.board_size).z = 0 ∧
        (Coordinates.from_index x g.board_size).x > 0
      then (a ++ [cellChar g x]) ++ ['/'] else a ++ [cellChar g x]) = a ++ emitCell g x
    unfold emitCell
    by_cases hc : (Coordinates.from_index x g.board_size).z = 0 ∧
        (Coordinates.from_index x g.board_size).x > 0
    · rw [if_pos hc, if_pos hc, List.append_assoc]
      rfl
    · rw [if_neg hc, if_neg hc]
  show (List.range ((g.board_size * (g.board_size + 1)) / 2)).foldl (fun acc idx =>
      let acc1 := acc ++ [cellChar g idx]
      let coords := Coordinates.from_index idx g.board_size
      if coords.z = 0 ∧ coords.x > 0 then acc1 ++ ['/'] else acc1) [] = _
  rw [total_cells_eq_tri, foldl_append_emit _ (emitCell g) hf, List.nil_append]

theorem range_tri_eq (size : Nat) :
    List.range (tri size) =
      ((List.range size).map (fun r => List.range' (tri r) (r + 1))).flatten := by
  induction size with
  | zero => rfl
  | succ n ih =>
    rw [List.range_succ, List.map_append, List.flatten_append, ← ih]
    simp only [List.map_cons, List.map_nil, List.flatten_cons, List.flatten_nil,
      List.append_nil]
    rw [List.range_eq_range' (tri (n + 1)), List.range_eq_range' (tri n), tri_succ]
    have h := List.range'_append 0 (tri n) (n + 1) 1
    simp only [Nat.one_mul, Nat.zero_add] at h
    rw [Nat.add_comm (tri n) (n + 1)]
    exact h.symm

/-- The characters of one row of the layout. -/
def rowChars (g : GameY) (r : Nat) : List Char :=
  (List.range' (tri r) (r + 1)).map (cellChar g)

theorem flatten_map_singleton {α β : Type} (l : List α) (f : α → β) :
    (l.map (fun x => [f x])).flatten = l.map f := by
  induction l with
  | nil => rfl
  | cons a t ih => simp [ih]

theorem cellChar_none {g : GameY} {i : Nat}
    (h : g.engine.state.getD i none = none) : cellChar g i = '.' := by
  unfold cellChar
  rw [h]

theorem cellChar_some {g : GameY} {i : Nat} {p : PlayerId}
    (h : g.engine.state.getD i none = some p) :
    cellChar g i = if p = 0 then 'B' else if p = 1 then 'R' else '.' := by
  unfold cellChar
  rw [h]

theorem emit_row (g : GameY) (r : Nat) :
    ((List.range' (tri r) (r + 1)).map (emitCell g)).flatten =
      rowChars g r ++ (if r + 1 < g.board_size then ['/'] else []) := by
  have hsplit : List.range' (tri r) (r + 1) = List.range' (tri r) r ++ [tri r + r] :=
    List.range'_1_concat (tri r) r
  have hpre : (List.range' (tri r) r).map (emitCell g) =
      (List.range' (tri r) r).map (fun i => [cellChar g i]) := by
    apply List.map_congr_left
    intro i hi
    rw [List.mem_range'_1] at hi
    have hrow : rowOf i = r := rowOf_eq hi.1 (by rw [tri_succ]; omega)
    have hz : (Coordinates.from_index i g.board_size).z ≠ 0 := by
      show rowOf i - (i - tri (rowOf i)) ≠ 0
      rw [hrow]
      omega
    unfold emitCell
    rw [if_neg (fun hc => hz hc.1)]
  have hlastrow : rowOf (tri r + r) = r := rowOf_tri_add (le_refl r)
  have hz0 : (Coordinates.from_index (tri r + r) g.board_size).z = 0 := by
    show rowOf (tri r + r) - (tri r + r - tri (rowOf (tri r + r))) = 0
    rw [hlastrow]
    omega
  have hlast : emitCell g (tri r + r) =
      cellChar g (tri r + r) :: (if r + 1 < g.board_size then ['/'] else []) := by
    unfold emitCell
    by_cases hx : r + 1 < g.board_size
    · have hxpos : (Coordinates.from_index (tri r + r) g.board_size).x > 0 := by
        show 0 < g.board_size - 1 - rowOf (tri r + r)
        rw [hlastrow]
        omega
      rw [if_pos ⟨hz0, hxpos⟩, if_pos hx]
    · have hxneg : ¬((Coordinates.from_index (tri r + r) g.board_size).z = 0 ∧
          (Coordinates.from_index (tri r + r) g.board_size).x > 0) := by
        rintro ⟨-, hxpos⟩
        have h2 : 0 < g.board_size - 1 - rowOf (tri r + r) := hxpos
        rw [hlastrow] at h2
        omega
      rw [if_neg hxneg, if_neg hx]
  rw [hsplit, List.map_append, List.flatten_append, hpre, flatten_map_singleton]
  simp only [List.map_cons, List.map_nil, List.flatten_cons, List.flatten_nil,
    List.append_nil, hlast]
  unfold rowChars
  rw [hsplit, List.map_append]
  simp [List.append_assoc]

theorem intercalate_slash_cons (a : List Char) (l : List (List Char))
    (hl : l ≠ []) :
    List.intercalate ['/'] (a :: l) = a ++ '/' :: List.intercalate ['/'] l := by
  cases l with
  | nil => exact absurd rfl hl
  | cons b t =>
    unfold List.intercalate
    rw [List.intersperse_cons₂]
    simp

theorem intercalate_build (f : Nat → List Char) (size : Nat) :
    ∀ (n k : Nat), k + n = size → 1 ≤ n →
      ((List.range' k n).map
        (fun r => f r ++ if r + 1 < size then ['/'] else [])).flatten =
        List.intercalate ['/'] ((List.range' k n).map f) := by
  intro n
  induction n with
  | zero => intro k hk h1; omega
  | succ m ih =>
    intro k hk h1
    cases m with
    | zero =>
      have hone : List.range' k 1 = [k] := by simp
      rw [hone]
      simp only [List.map_cons, List.map_nil, List.flatten_cons, List.flatten_nil,
        List.append_nil]
      rw [if_neg (by omega)]
      unfold List.intercalate
      simp
    | succ m' =>
      have hk1 : k + 1 < size := by omega
      have htail := ih (k + 1) (by omega) (by omega)
      have hne : (List.range' (k + 1) (m' + 1)).map f ≠ [] := by
        rw [List.range'_succ]
        simp
      rw [List.range'_succ]
      simp only [List.map_cons, List.flatten_cons]
      rw [if_pos hk1, htail, intercalate_slash_cons _ _ hne]
      simp [List.append_assoc]

theorem flatten_map_flatten {α β : Type} (e : α → List β) :
    ∀ (L : List (List α)),
      (L.flatten.map e).flatten = (L.map (fun l => (l.map e).flatten)).flatten := by
  intro L
  induction L with
  | nil => rfl
  | cons a t ih =>
    simp only [List.flatten_cons, List.map_append, List.flatten_append, ih,
      List.map_cons]

theorem fromGame_layout_rows (g : GameY) (hsize : 1 ≤ g.board_size) :
    (YEN.fromGame g).layout =
      List.intercalate ['/'] ((List.range g.board_size).map (rowChars g)) := by
  rw [fromGame_layout, range_tri_eq, flatten_map_flatten, List.map_map]
  have hcong : (List.range g.board_size).map
      ((fun l => (l.map (emitCell g)).flatten) ∘
        (fun r => List.range' (tri r) (r + 1))) =
      (List.range g.board_size).map
        (fun r => rowChars g r ++ if r + 1 < g.board_size then ['/'] else []) := by
    apply List.map_congr_left
    intro r _
    show ((List.range' (tri r) (r + 1)).map (emitCell g)).flatten = _
    exact emit_row g r
  rw [hcong, List.range_eq_range' g.board_size]
  exact intercalate_build (rowChars g) g.board_size g.board_size 0 (by omega) hsize

theorem slash_not_mem_rowChars (g : GameY) (r : Nat) : '/' ∉ rowChars g r := by
  unfold rowChars
  intro hmem
  rw [List.mem_map] at hmem
  obtain ⟨i, -, hc⟩ := hmem
  cases hocc : g.engine.state.getD i none with
  | none =>
    rw [cellChar_none hocc] at hc
    exact absurd hc (by decide)
  | some p =>
    rw [cellChar_some hocc] at hc
    by_cases h0 : p = 0
    · rw [if_pos h0] at hc
      exact absurd hc (by decide)
    · rw [if_neg h0] at hc
      by_cases h1 : p = 1
      · rw [if_pos h1] at hc
        exact absurd hc (by decide)
      · rw [if_neg h1] at hc
        exact absurd hc (by decide)

theorem try_from_fromGame_rows (g : GameY) (hsize : 1 ≤ g.board_size) :
    GameY.try_from (YEN.fromGame g) =
      decodeRows g.board_size (GameY.new g.board_size) 0
        ((List.range g.board_size).map (rowChars g)) := by
  have hsplit : ((YEN.fromGame g).layout).splitOn '/' =
      (List.range g.board_size).map (rowChars g) := by
    rw [fromGame_layout_rows g hsize]
    apply List.splitOn_intercalate
    · intro l hl
      rw [List.mem_map] at hl
      obtain ⟨r, -, hrf⟩ := hl
      rw [← hrf]
      exact slash_not_mem_rowChars g r
    · intro h
      have hlen := congrArg List.length h
      rw [List.length_map, List.length_range] at hlen
      simp at hlen
      omega
  show (if (((YEN.fromGame g).layout).splitOn '/').length ≠ (YEN.fromGame g).size then
      DRes.err (GameYError.InvalidYENLayout (YEN.fromGame g).size
        (((YEN.fromGame g).layout).splitOn '/').length)
    else decodeRows (YEN.fromGame g).size (GameY.new (YEN.fromGame g).size) 0
      (((YEN.fromGame g).layout).splitOn '/')) = _
  have hsz : (YEN.fromGame g).size = g.board_size := rfl
  rw [hsplit, hsz, List.length_map, List.length_range, if_neg (fun h => h rfl)]

/-! ## Legal runs: occupancy players and crash-freedom -/

theorem getD_set_cases {α : Type} (l : List α) (i j : Nat) (v d : α) :
    (l.set i v).getD j d = if i = j ∧ i < l.length then v else l.getD j d := by
  by_cases h1 : i = j
  · subst h1
    by_cases h2 : i < l.length
    · rw [if_pos ⟨rfl, h2⟩, getD_set_eq _ _ _ _ h2]
    · rw [if_neg (fun hc => h2 hc.2), List.set_eq_of_length_le (Nat.not_lt.mp h2)]
  · rw [if_neg (fun hc => h1 hc.1), getD_set_ne _ _ _ h1]

theorem getD_replicate_none {α : Type} (n i : Nat) :
    (List.replicate n (none : Option α)).getD i none = none := by
  by_cases h : i < n
  · exact getD_replicate n i none none h
  · exact List.getD_eq_default _ _ (by rw [List.length_replicate]; omega)

theorem other_player_mem (p : PlayerId) :
    other_player p = 0 ∨ other_player p = 1 := by
  unfold other_player
  by_cases h : p = 0
  · rw [if_pos h]
    right
    rfl
  · rw [if_neg h]
    left
    rfl

/-- Occupancy sanity of a game state: every occupant and every
player-to-move is one of the two real players. -/
def OccOk (g : GameY) : Prop :=
  (∀ idx p, g.engine.state.getD idx none = some p → p = 0 ∨ p = 1) ∧
  (∀ p, g.status = GameStatus.Ongoing p → p = 0 ∨ p = 1)

theorem occOk_new (size : Nat) : OccOk (GameY.new size) := by
  constructor
  · intro idx p h
    rw [show (GameY.new size).engine.state =
        List.replicate (TriangularTopology.new size).total_cells none from rfl,
      getD_replicate_none] at h
    cases h
  · intro p h
    have h2 : (0 : PlayerId) = p := GameStatus.Ongoing.inj h
    left
    exact h2.symm

/-- Inversion of a successful `handle_placement`. -/
theorem handle_placement_ok_inv {g : GameY} {player : PlayerId}
    {coords : Coordinates} {g' : GameY}
    (h : g.handle_placement player coords = MoveRes.ok g') :
    ∃ won engine',
      g.engine.make_move (coords.to_index g.board_size) player =
        Except.ok (won, engine') ∧
      g' = { g with
        engine := engine'
        available_cells := g.available_cells.filter
          (fun x => x ≠ coords.to_index g.board_size)
        status := g.update_status_after_placement player won } := by
  cases hv : g.validate_placement player coords with
  | crash =>
    rw [handle_placement_crash _ _ _ hv] at h
    cases h
  | err e =>
    rw [handle_placement_err _ _ _ _ hv] at h
    cases h
  | ok =>
    rw [handle_placement_ok_engine _ _ _ hv] at h
    cases hmm : g.engine.make_move (coords.to_index g.board_size) player with
    | error s =>
      rw [hmm] at h
      cases h
    | ok val =>
      obtain ⟨won, engine'⟩ := val
      rw [hmm] at h
      exact ⟨won, engine', rfl, (MoveRes.ok.inj h).symm⟩

/-- Inversion of a successful placement `add_move`. -/
theorem add_move_placement_ok_inv {g : GameY} {player : PlayerId}
    {coords : Coordinates} {g' : GameY}
    (h : g.add_move (Movement.Placement player coords) = MoveRes.ok g') :
    ∃ won engine',
      g.engine.make_move (coords.to_index g.board_size) player =
        Except.ok (won, engine') ∧
      g' = { g with
        engine := engine'
        available_cells := g.available_cells.filter
          (fun x => x ≠ coords.to_index g.board_size)
        status := g.update_status_after_placement player won
        history := g.history ++ [Movement.Placement player coords] } := by
  rw [add_move_placement] at h
  cases hhp : g.handle_placement player coords with
  | err e g3 =>
    rw [hhp] at h
    cases h
  | crash =>
    rw [hhp] at h
    cases h
  | ok g3 =>
    rw [hhp] at h
    obtain ⟨won, engine', hmm, hg3⟩ := handle_placement_ok_inv hhp
    refine ⟨won, engine', hmm, ?_⟩
    have h2 := MoveRes.ok.inj h
    rw [← h2, hg3]

theorem occOk_legalStep {g g' : GameY} {m : PlayerId × Coordinates}
    (hok : OccOk g) (h : legalStep g m = some g') : OccOk g' := by
  unfold legalStep at h
  cases hst : g.status with
  | Finished w =>
    rw [hst] at h
    cases h
  | Ongoing np =>
    rw [hst] at h
    replace h : (if m.1 = np then
        match g.add_move (Movement.Placement m.1 m.2) with
        | MoveRes.ok g2 => some g2
        | MoveRes.err _ _ => none
        | MoveRes.crash => none
      else none) = some g' := h
    by_cases hp : m.1 = np
    · rw [if_pos hp] at h
      cases hmv : g.add_move (Movement.Placement m.1 m.2) with
      | err e g2 =>
        rw [hmv] at h
        cases h
      | crash =>
        rw [hmv] at h
        cases h
      | ok g2 =>
        rw [hmv] at h
        have hg2 : g2 = g' := Option.some.inj h
        subst hg2
        obtain ⟨won, engine', hmm, hg'⟩ := add_move_placement_ok_inv hmv
        subst hg'
        constructor
        · intro i q hi
          have hstate := (make_move_ok_state hmm).2.1
          rw [show ({ g with
              engine := engine'
              available_cells := g.available_cells.filter
                (fun x => x ≠ m.2.to_index g.board_size)
              status := g.update_status_after_placement m.1 won
              history := g.history ++ [Movement.Placement m.1 m.2]
              } : GameY).engine.state = engine'.state from rfl, hstate,
            getD_set_cases] at hi
          split at hi
          · have hq : m.1 = q := Option.some.inj hi
            rw [← hq, hp]
            exact hok.2 np hst
          · exact hok.1 i q hi
        · intro q hq
          have hq2 : g.update_status_after_placement m.1 won =
              GameStatus.Ongoing q := hq
          unfold GameY.update_status_after_placement at hq2
          rw [show g.check_game_over = false from by
            unfold GameY.check_game_over
            rw [hst]] at hq2
          rw [if_neg Bool.false_ne_true] at hq2
          by_cases hwon : won = true
          · rw [if_pos hwon] at hq2
            cases hq2
          · rw [if_neg hwon] at hq2
            have hq3 : other_player m.1 = q := GameStatus.Ongoing.inj hq2
            rw [← hq3]
            exact other_player_mem m.1
    · rw [if_neg hp] at h
      cases h

theorem occOk_runLegal :
    ∀ (ms : List (PlayerId × Coordinates)) (g0 g1 : GameY),
      OccOk g0 → runLegal g0 ms = some g1 → OccOk g1 := by
  intro ms
  induction ms with
  | nil =>
    intro g0 g1 h0 hr
    rw [← Option.some.inj hr]
    exact h0
  | cons m rest ih =>
    intro g0 g1 h0 hr
    unfold runLegal at hr
    cases hs : legalStep g0 m with
    | none =>
      rw [hs] at hr
      cases hr
    | some g2 =>
      rw [hs] at hr
      exact ih g2 g1 (occOk_legalStep h0 hs) hr

theorem occOk_legalReachable {g : GameY} (h : LegalReachable g) : OccOk g := by
  obtain ⟨size, ms, hrun⟩ := h
  exact occOk_runLegal ms (GameY.new size) g (occOk_new size) hrun

theorem legalStep_stepGame {g g' : GameY} {m : PlayerId × Coordinates}
    (h : legalStep g m = some g') :
    stepGame g (Movement.Placement m.1 m.2) = some g' := by
  unfold legalStep at h
  cases hst : g.status with
  | Finished w =>
    rw [hst] at h
    cases h
  | Ongoing np =>
    rw [hst] at h
    replace h : (if m.1 = np then
        match g.add_move (Movement.Placement m.1 m.2) with
        | MoveRes.ok g2 => some g2
        | MoveRes.err _ _ => none
        | MoveRes.crash => none
      else none) = some g' := h
    by_cases hp : m.1 = np
    · rw [if_pos hp] at h
      unfold stepGame
      cases hmv : g.add_move (Movement.Placement m.1 m.2) with
      | ok g2 =>
        rw [hmv] at h
        exact h
      | err e g2 =>
        rw [hmv] at h
        cases h
      | crash =>
        rw [hmv] at h
        cases h
    · rw [if_neg hp] at h
      cases h

theorem legalReachable_gameReachable {g : GameY} (h : LegalReachable g) :
    GameReachable g := by
  obtain ⟨size, ms, hrun⟩ := h
  refine ⟨size, ms.map (fun m => Movement.Placement m.1 m.2), ?_⟩
  have key : ∀ (ms : List (PlayerId × Coordinates)) (g0 g1 : GameY),
      runLegal g0 ms = some g1 →
      runGame g0 (ms.map (fun m => Movement.Placement m.1 m.2)) = some g1 := by
    intro ms
    induction ms with
    | nil =>
      intro g0 g1 hr
      exact hr
    | cons m rest ih =>
      intro g0 g1 hr
      unfold runLegal at hr
      cases hs : legalStep g0 m with
      | none =>
        rw [hs] at hr
        cases hr
      | some g2 =>
        rw [hs] at hr
        rw [List.map_cons]
        unfold runGame
        rw [legalStep_stepGame hs]
        exact ih g2 g1 hr
  exact key ms _ g hrun

/-- A placement on an in-bounds free cell of a well-formed game always
succeeds, and only places the piece (plus bookkeeping). -/
theorem add_move_free {g : GameY} (hwf : GameWF g) (player : PlayerId)
    (coords : Coordinates)
    (hidx : coords.to_index g.board_size < tri g.board_size)
    (hfree : g.engine.state.getD (coords.to_index g.board_size) none = none) :
    ∃ g', g.add_move (Movement.Placement player coords) = MoveRes.ok g' ∧
      g'.board_size = g.board_size ∧
      g'.engine.state = g.engine.state.set (coords.to_index g.board_size)
        (some player) ∧
      GameWF g' := by
  have hlen : g.engine.state.length = tri g.board_size := by
    rw [hwf.2.state_len, hwf.1, total_cells_new]
  have hv : g.validate_placement player coords = VRes.ok := by
    show (if coords.to_index g.board_size < g.engine.state.length then
        if (g.engine.state.getD (coords.to_index g.board_size) none).isSome then
          VRes.err (GameYError.Occupied coords player)
        else VRes.ok
      else VRes.crash) = VRes.ok
    rw [if_pos (by rw [hlen]; exact hidx), hfree]
    rfl
  have hcell : coords.to_index g.board_size < g.engine.topology.total_cells := by
    rw [hwf.1, total_cells_new]
    exact hidx
  obtain ⟨sets', hok, -⟩ :=
    @make_move_spec g.engine hwf.2 (coords.to_index g.board_size) player hcell hfree
  have hhp : g.handle_placement player coords = MoveRes.ok { g with
      engine :=
        { topology := g.engine.topology,
          state := g.engine.state.set (coords.to_index g.board_size) (some player),
          sets := sets',
          cell_set_map := g.engine.cell_set_map.set (coords.to_index g.board_size)
            (some g.engine.sets.length) },
      available_cells := g.available_cells.filter
        (fun x => x ≠ coords.to_index g.board_size),
      status := g.update_status_after_placement player
        ((newRootMask g.engine (coords.to_index g.board_size) player &&&
          g.engine.topology.winning_mask) == g.engine.topology.winning_mask) } := by
    rw [handle_placement_ok_engine g player coords hv, hok]
  have hadd : g.add_move (Movement.Placement player coords) = MoveRes.ok { g with
      engine :=
        { topology := g.engine.topology,
          state := g.engine.state.set (coords.to_index g.board_size) (some player),
          sets := sets',
          cell_set_map := g.engine.cell_set_map.set (coords.to_index g.board_size)
            (some g.engine.sets.length) },
      available_cells := g.available_cells.filter
        (fun x => x ≠ coords.to_index g.board_size),
      status := g.update_status_after_placement player
        ((newRootMask g.engine (coords.to_index g.board_size) player &&&
          g.engine.topology.winning_mask) == g.engine.topology.winning_mask),
      history := g.history ++ [Movement.Placement player coords] } := by
    rw [add_move_placement, hhp]
  refine ⟨_, hadd, rfl, rfl,
    @gameWF_step g (Movement.Placement player coords) _ hwf ?_⟩
  unfold stepGame
  rw [hadd]

/-! ## Decode: replaying the layout reproduces the occupancy -/

/-- Invariant threaded through the decode replay: the partial game `h`
agrees with the encoded game `g` on every cell below `pos` and is still
empty from `pos` on. -/
structure DecInv (g h : GameY) (pos : Nat) : Prop where
  bsize : h.board_size = g.board_size
  wf : GameWF h
  agree : ∀ idx, idx < pos →
    h.engine.state.getD idx none = g.engine.state.getD idx none
  above : ∀ idx, pos ≤ idx → h.engine.state.getD idx none = none

theorem decodeRowCells_consB (size row : Nat) (g : GameY) (col : Nat)
    (rest : List Char) :
    decodeRowCells size row g col ('B' :: rest) =
      match g.add_move (Movement.Placement 0 (Coordinates.new (size - 1 - row) col
          (size - 1 - (size - 1 - row) - col))) with
      | MoveRes.ok g' => decodeRowCells size row g' (col + 1) rest
      | MoveRes.err e _ => DRes.err e
      | MoveRes.crash => DRes.crash := rfl

theorem decodeRowCells_consR (size row : Nat) (g : GameY) (col : Nat)
    (rest : List Char) :
    decodeRowCells size row g col ('R' :: rest) =
      match g.add_move (Movement.Placement 1 (Coordinates.new (size - 1 - row) col
          (size - 1 - (size - 1 - row) - col))) with
      | MoveRes.ok g' => decodeRowCells size row g' (col + 1) rest
      | MoveRes.err e _ => DRes.err e
      | MoveRes.crash => DRes.crash := rfl

theorem decodeRowCells_consDot (size row : Nat) (g : GameY) (col : Nat)
    (rest : List Char) :
    decodeRowCells size row g col ('.' :: rest) =
      decodeRowCells size row g (col + 1) rest := rfl

theorem decodeRows_cons (size : Nat) (g : GameY) (row : Nat) (cells : List Char)
    (rest : List (List Char)) :
    decodeRows size g row (cells :: rest) =
      if cells.length ≠ row + 1 then
        DRes.err (GameYError.InvalidYENLayoutLine (row + 1) cells.length row)
      else
        match decodeRowCells size row g 0 cells with
        | DRes.ok g' => decodeRows size g' (row + 1) rest
        | DRes.err e => DRes.err e
        | DRes.crash => DRes.crash := rfl

theorem decodeRowCells_spec (g : GameY)
    (hocc : ∀ idx p, g.engine.state.getD idx none = some p → p = 0 ∨ p = 1)
    (r : Nat) (hr : r < g.board_size) :
    ∀ (n col : Nat) (h : GameY), col + n = r + 1 →
      DecInv g h (tri r + col) →
      ∃ h2, decodeRowCells g.board_size r h col
          ((List.range' (tri r + col) n).map (cellChar g)) = DRes.ok h2 ∧
        DecInv g h2 (tri r + (r + 1)) := by
  intro n
  induction n with
  | zero =>
    intro col h hcol hinv
    refine ⟨h, rfl, ?_⟩
    have hcr : col = r + 1 := by omega
    rw [← hcr]
    exact hinv
  | succ m ih =>
    intro col h hcol hinv
    have hplt : tri r + col < tri g.board_size := by
      have h1 : tri r + col < tri (r + 1) := by rw [tri_succ]; omega
      exact lt_of_lt_of_le h1 (tri_mono hr)
    have hidxeq : (Coordinates.new (g.board_size - 1 - r) col
        (g.board_size - 1 - (g.board_size - 1 - r) - col)).to_index g.board_size =
        tri r + col := by
      show tri (g.board_size - 1 - (g.board_size - 1 - r)) + col = tri r + col
      have hrr : g.board_size - 1 - (g.board_size - 1 - r) = r := by omega
      rw [hrr]
    rw [List.range'_succ, List.map_cons]
    cases hgp : g.engine.state.getD (tri r + col) none with
    | none =>
      rw [cellChar_none hgp, decodeRowCells_consDot]
      have hinv2 : DecInv g h (tri r + (col + 1)) := by
        refine ⟨hinv.bsize, hinv.wf, ?_, ?_⟩
        · intro idx hidx
          by_cases hie : idx = tri r + col
          · rw [hie, hinv.above (tri r + col) (le_refl _), hgp]
          · exact hinv.agree idx (by omega)
        · intro idx hidx
          exact hinv.above idx (by omega)
      exact ih (col + 1) h (by omega) hinv2
    | some q =>
      have hidxh : (Coordinates.new (g.board_size - 1 - r) col
          (g.board_size - 1 - (g.board_size - 1 - r) - col)).to_index h.board_size <
          tri h.board_size := by
        rw [hinv.bsize, hidxeq]
        exact hplt
      have hfreeh : h.engine.state.getD
          ((Coordinates.new (g.board_size - 1 - r) col
            (g.board_size - 1 - (g.board_size - 1 - r) - col)).to_index
              h.board_size) none = none := by
        rw [hinv.bsize, hidxeq]
        exact hinv.above _ (le_refl _)
      have hidx0 : (Coordinates.new (g.board_size - 1 - r) col
          (g.board_size - 1 - (g.board_size - 1 - r) - col)).to_index h.board_size =
          tri r + col := by
        rw [hinv.bsize, hidxeq]
      have hlenb : tri r + col < h.engine.state.length := by
        rw [hinv.wf.2.state_len, hinv.wf.1, total_cells_new, hinv.bsize]
        exact hplt
      rcases hocc _ _ hgp with hq0 | hq1
      · subst hq0
        rw [cellChar_some hgp, if_pos rfl, decodeRowCells_consB]
        obtain ⟨h', hadd, hbs, hst, hwf'⟩ := add_move_free hinv.wf 0 _ hidxh hfreeh
        rw [hadd]
        show ∃ h2, decodeRowCells g.board_size r h' (col + 1)
            ((List.range' (tri r + col + 1) m).map (cellChar g)) = DRes.ok h2 ∧
          DecInv g h2 (tri r + (r + 1))
        have hinv2 : DecInv g h' (tri r + (col + 1)) := by
          refine ⟨hbs.trans hinv.bsize, hwf', ?_, ?_⟩
          · intro idx hidx
            rw [hst, hidx0, getD_set_cases]
            by_cases hie : tri r + col = idx
            · rw [if_pos ⟨hie, hlenb⟩, ← hie, hgp]
            · rw [if_neg (fun hc => hie hc.1)]
              exact hinv.agree idx (by omega)
          · intro idx hidx
            rw [hst, hidx0, getD_set_cases,
              if_neg (fun hc => absurd hc.1 (by omega))]
            exact hinv.above idx (by omega)
        exact ih (col + 1) h' (by omega) hinv2
      · subst hq1
        rw [cellChar_some hgp, if_neg (by decide), if_pos rfl, decodeRowCells_consR]
        obtain ⟨h', hadd, hbs, hst, hwf'⟩ := add_move_free hinv.wf 1 _ hidxh hfreeh
        rw [hadd]
        show ∃ h2, decodeRowCells g.board_size r h' (col + 1)
            ((List.range' (tri r + col + 1) m).map (cellChar g)) = DRes.ok h2 ∧
          DecInv g h2 (tri r + (r + 1))
        have hinv2 : DecInv g h' (tri r + (col + 1)) := by
          refine ⟨hbs.trans hinv.bsize, hwf', ?_, ?_⟩
          · intro idx hidx
            rw [hst, hidx0, getD_set_cases]
            by_cases hie : tri r + col = idx
            · rw [if_pos ⟨hie, hlenb⟩, ← hie, hgp]
            · rw [if_neg (fun hc => hie hc.1)]
              exact hinv.agree idx (by omega)
          · intro idx hidx
            rw [hst, hidx0, getD_set_cases,
              if_neg (fun hc => absurd hc.1 (by omega))]
            exact hinv.above idx (by omega)
        exact ih (col + 1) h' (by omega) hinv2

theorem decodeRows_spec (g : GameY)
    (hocc : ∀ idx p, g.engine.state.getD idx none = some p → p = 0 ∨ p = 1) :
    ∀ (n r : Nat) (h : GameY), r + n = g.board_size →
      DecInv g h (tri r) →
      ∃ h2, decodeRows g.board_size h r ((List.range' r n).map (rowChars g)) =
          DRes.ok h2 ∧ DecInv g h2 (tri g.board_size) := by
  intro n
  induction n with
  | zero =>
    intro r h hr hinv
    refine ⟨h, rfl, ?_⟩
    have hrs : r = g.board_size := by omega
    rw [← hrs]
    exact hinv
  | succ m ih =>
    intro r h hr hinv
    rw [List.range'_succ, List.map_cons, decodeRows_cons]
    have hlen : (rowChars g r).length = r + 1 := by
      unfold rowChars
      rw [List.length_map, List.length_range']
    rw [if_neg (by rw [hlen]; exact fun hne => hne rfl)]
    obtain ⟨h1, hrow, hinv1⟩ := decodeRowCells_spec g hocc r (by omega) (r + 1) 0 h
      (by omega) hinv
    simp only [Nat.add_zero] at hrow
    rw [show rowChars g r = (List.range' (tri r) (r + 1)).map (cellChar g) from rfl,
      hrow]
    show ∃ h2, decodeRows g.board_size h1 (r + 1)
        ((List.range' (r + 1) m).map (rowChars g)) = DRes.ok h2 ∧
      DecInv g h2 (tri g.board_size)
    exact ih (r + 1) h1 (by omega) hinv1

/-- Claim C4 (as stated) is false for the empty board: `GameY::new(0)`
is legally reachable (by the empty sequence), its encoding has the empty
layout, and splitting the empty layout on `/` yields one (empty) row
where zero rows are expected, so decoding fails instead of reproducing
the occupancy. -/
theorem claim_C4_counterexample :
    runLegal (GameY.new 0) [] = some (GameY.new 0) ∧
    GameY.try_from (YEN.fromGame (GameY.new 0)) =
      DRes.err (GameYError.InvalidYENLayout 0 1) := by decide

/-- Claim C4 (amended): for every game reachable by a sequence of legal
placements whose board size is at least 1, encoding to YEN and decoding
back succeeds and yields a game whose per-cell occupancy is identical to
the original's.  (For board size 0 the round trip fails: the empty
layout decodes to one row instead of zero.) -/
theorem claim_C4 (g : GameY) (hlr : LegalReachable g)
    (hsize : 1 ≤ g.board_size) :
    ∃ g', GameY.try_from (YEN.fromGame g) = DRes.ok g' ∧
      ∀ idx, g'.engine.state.getD idx none = g.engine.state.getD idx none := by
  have hwf : GameWF g := gameWF_reachable (legalReachable_gameReachable hlr)
  have hocc := (occOk_legalReachable hlr).1
  rw [try_from_fromGame_rows g hsize, List.range_eq_range' g.board_size]
  have hinv0 : DecInv g (GameY.new g.board_size) (tri 0) :=
    { bsize := rfl
      wf := gameWF_new g.board_size
      agree := fun idx hidx => absurd hidx (by rw [tri_zero]; omega)
      above := fun idx _ => getD_replicate_none _ _ }
  obtain ⟨g', hrun, hinv⟩ :=
    decodeRows_spec g hocc g.board_size 0 (GameY.new g.board_size) (by omega) hinv0
  refine ⟨g', hrun, ?_⟩
  intro idx
  by_cases hlt : idx < tri g.board_size
  · exact hinv.agree idx hlt
  · rw [hinv.above idx (Nat.not_lt.mp hlt)]
    have hglen : g.engine.state.length = tri g.board_size := by
      rw [hwf.2.state_len, hwf.1, total_cells_new]
    rw [List.getD_eq_default _ _ (by rw [hglen]; exact Nat.not_lt.mp hlt)]

theorem claim_C4_witness :
    ∃ g', GameY.try_from (YEN.fromGame
        ((runLegal (GameY.new 2) [(0, Coordinates.new 1 0 0)]).getD
          (GameY.new 2))) = DRes.ok g' ∧
      ∀ idx, g'.engine.state.getD idx none =
        ((runLegal (GameY.new 2) [(0, Coordinates.new 1 0 0)]).getD
          (GameY.new 2)).engine.state.getD idx none :=
  claim_C4 ((runLegal (GameY.new 2) [(0, Coordinates.new 1 0 0)]).getD
      (GameY.new 2))
    ⟨2, [(0, Coordinates.new 1 0 0)], by decide⟩ (by decide)

theorem claim_C6_witness :
    ∃ w e1 e2,
      (runEngine (GameEngine.new (TriangularTopology.new 2))
        [(1, 0)]).make_move 0 0 = Except.ok (w, e1) ∧
      ({ runEngine (GameEngine.new (TriangularTopology.new 2)) [(1, 0)] with
          topology := { (runEngine (GameEngine.new (TriangularTopology.new 2))
              [(1, 0)]).topology with
            adjacency := (runEngine (GameEngine.new (TriangularTopology.new 2))
              [(1, 0)]).topology.adjacency.set 0
                ((runEngine (GameEngine.new (TriangularTopology.new 2))
                  [(1, 0)]).topology.adjacency.getD 0 []).reverse } }).make_move
        0 0 = Except.ok (w, e2) :=
  claim_C6 (runEngine (GameEngine.new (TriangularTopology.new 2)) [(1, 0)]) 0 0
    ((runEngine (GameEngine.new (TriangularTopology.new 2))
      [(1, 0)]).topology.adjacency.getD 0 []).reverse
    ⟨2, [(1, 0)], rfl⟩ (by decide) (by decide) (by decide)

end YGame
